import Mathlib

/-!
Verification of the microfont repository: a shallow embedding of the
binary font container builder (font_to_microfont.py) and of the runtime
reader / glyph compositor (microfont.py), with theorems settling the
frozen claims about round-trip behaviour, binary search, the height
fitter, capacity errors, padding, blit bounds safety, rotation fast
paths and cache transparency.

Bytes are modelled as Nat values below 256 inside List Nat; machine
integers of the Viper compiled blitter are modelled as Int (the bounds
checks of the blitter test the final computed values themselves, so the
guarded writes are insensitive to 32-bit wraparound); fallible Python
code (raise) is modelled with Except String.
-/

namespace MF

/-- Lookup table from microfont.py: at position A (degrees) the table
stores sin(A)*64+64 for A in 0..179, transcribed byte by byte from the
FAST_SIN_TABLE bytes literal. -/
def FAST_SIN_TABLE : List Nat :=
  [64, 65, 66, 67, 68, 69, 70, 71, 72, 74, 75, 76, 77, 78, 79, 80, 81, 82, 83,
   84, 85, 86, 87, 89, 90, 91, 92, 93, 94, 95, 95, 96, 97, 98, 99, 100, 101,
   102, 103, 104, 105, 105, 106, 107, 108, 109, 110, 110, 111, 112, 113, 113,
   114, 115, 115, 116, 117, 117, 118, 118, 119, 119, 120, 121, 121, 122, 122,
   122, 123, 123, 124, 124, 124, 125, 125, 125, 126, 126, 126, 126, 127, 127,
   127, 127, 127, 127, 127, 127, 127, 127, 128, 127, 127, 127, 127, 127, 127,
   127, 127, 127, 127, 126, 126, 126, 126, 125, 125, 125, 124, 124, 124, 123,
   123, 122, 122, 122, 121, 121, 120, 119, 119, 118, 118, 117, 117, 116, 115,
   115, 114, 113, 113, 112, 111, 110, 110, 109, 108, 107, 106, 105, 105, 104,
   103, 102, 101, 100, 99, 98, 97, 96, 95, 95, 94, 93, 92, 91, 90, 89, 87, 86,
   85, 84, 83, 82, 81, 80, 79, 78, 77, 76, 75, 74, 72, 71, 70, 69, 68, 67, 66,
   65]

/-- fast_sin from microfont.py.  Python % on ints is Int.emod here
(nonnegative result for a positive modulus). -/
def fast_sin (angle : Int) : Int :=
  let angle := angle.emod 360
  if angle ≥ 180 then
    -(((FAST_SIN_TABLE.getD (angle.emod 180).toNat 0 : Int)) - 64)
  else
    ((FAST_SIN_TABLE.getD angle.toNat 0 : Int)) - 64

/-- fast_cos from microfont.py. -/
def fast_cos (angle : Int) : Int := fast_sin (angle + 90)

def COLORMODE_MONO_HLSB : Nat := 0
def COLORMODE_RGB_565 : Nat := 1

/-- read_int_16 from microfont.py: two bytes, little endian. -/
def read_int_16 (l : List Nat) : Nat := l.getD 0 0 ||| (l.getD 1 0) <<< 8

/-- One iteration body of the while-True loop of MicroFont.bs, with the
recursion on the sliced buffers explicit.  fuel bounds the number of
iterations; every iteration strictly shrinks the buffer, so the wrapper
bs below supplies enough fuel for the loop to run to completion.
The midpoint m = (len & ~7) >> 1 of the source clears the three low bits
of the length before halving, i.e. m = (len / 8 * 8) / 2. -/
def bsFuel : Nat → List Nat → Nat → Nat
  | 0, _, _ => 0
  | fuel + 1, index, val =>
    let m := index.length / 8 * 8 / 2
    let v := index.getD m 0 ||| (index.getD (m + 1) 0) <<< 8
    if v = val then index.getD (m + 2) 0 ||| (index.getD (m + 3) 0) <<< 8
    else if m = 0 then 0
    else if v < val then bsFuel fuel (index.drop m) val
    else bsFuel fuel (index.take m) val

/-- Binary search of the sparse index (MicroFont.bs). -/
def bs (index : List Nat) (val : Nat) : Nat :=
  bsFuel (index.length + 1) index val

/-- Reader state: header fields plus the optional caches, mirroring the
attributes set by MicroFont.__init__.  The glyph cache dict is an
association list keyed by character code; dict update is modelled by
cons, looked up front first. -/
structure Reader where
  height : Nat
  baseline : Nat
  max_width : Nat
  monospaced : Bool
  index_len : Nat
  cache_chars : Bool
  cache_index : Bool
  index : Option (List Nat)
  cache : List (Nat × (List Nat × Nat × Nat))
deriving Repr, DecidableEq

/-- MicroFont.__init__: parse the 12 byte header <4sBBBBL and build the
initial reader state.  A file shorter than 12 bytes raises. -/
def MicroFont_init (file : List Nat) (cache_index cache_chars : Bool) :
    Except String Reader :=
  if file.length < 12 then
    .error "Corrupted header for MFNT font file"
  else if file.take 4 ≠ [77, 70, 78, 84] then
    .error "not a MicroFont file"
  else
    .ok { height := file.getD 4 0
          baseline := file.getD 5 0
          max_width := file.getD 6 0
          monospaced := file.getD 7 0 ≠ 0
          index_len := file.getD 8 0 + (file.getD 9 0) * 256 +
            (file.getD 10 0) * 65536 + (file.getD 11 0) * 16777216
          cache_chars := cache_chars
          cache_index := cache_index || cache_chars
          index := none
          cache := [] }

/-- The index buffer MicroFont.get_ch binary-searches: the source does
stream.seek(0); stream.read(index_len), i.e. the first index_len bytes
of the file (which therefore begin with the 12 header bytes). -/
def indexBuffer (file : List Nat) (index_len : Nat) : List Nat :=
  file.take index_len

/-- The pure read performed by get_ch once the index buffer is in hand:
doff = bs(index, code) << 3; seek to 12 + index_len + doff; read a two
byte little endian width, then (width+7)/8*height bytes.  Reads past the
end of the file are modelled as 0 bytes / truncated reads (the claims
only evaluate in-range reads). -/
def get_ch_pure (file : List Nat) (height index_len : Nat) (code : Nat) :
    List Nat × Nat × Nat :=
  let index := indexBuffer file index_len
  let doff := (bs index code) <<< 3
  let pos := 12 + index_len + doff
  let width := read_int_16 [file.getD pos 0, file.getD (pos + 1) 0]
  let char_data_len := (width + 7) / 8 * height
  ((file.drop (pos + 2)).take char_data_len, height, width)

/-- The index buffer get_ch works with: the retained copy when one was
cached by an earlier call, else the bytes read from the stream. -/
def workingIndex (file : List Nat) (r : Reader) : List Nat :=
  match r.index with
  | some i => i
  | none => indexBuffer file r.index_len

/-- The reader state after the index read step of get_ch: when nothing
was cached and cache_index is set, the freshly read buffer is retained. -/
def afterIndexRead (file : List Nat) (r : Reader) : Reader :=
  match r.index with
  | some _ => r
  | none =>
    if r.cache_index then { r with index := some (indexBuffer file r.index_len) } else r

/-- MicroFont.get_ch with its cache bookkeeping: returns the character
triple and the updated reader state.  The miss path binary-searches the
working index, seeks to 12 + index_len + doff and decodes the block;
when cache_chars is set the decoded triple is recorded. -/
def get_ch (file : List Nat) (r : Reader) (code : Nat) :
    (List Nat × Nat × Nat) × Reader :=
  match r.cache_chars, r.cache.lookup code with
  | true, some t => (t, r)
  | _, _ =>
    let index := workingIndex file r
    let r1 := afterIndexRead file r
    let doff := (bs index code) <<< 3
    let pos := 12 + r1.index_len + doff
    let width := read_int_16 [file.getD pos 0, file.getD (pos + 1) 0]
    let char_data_len := (width + 7) / 8 * r1.height
    let retval := ((file.drop (pos + 2)).take char_data_len, r1.height, width)
    (retval, if r1.cache_chars then { r1 with cache := (code, retval) :: r1.cache } else r1)

/-- Run a sequence of get_ch calls, keeping only the evolving state. -/
def runCalls (file : List Nat) (r : Reader) : List Nat → Reader
  | [] => r
  | c :: rest => runCalls file (get_ch file r c).2 rest

/-- Low 8 bits of a machine integer, as stored by a ptr8 assignment:
for an Int in two complement representation this is the value mod 256. -/
def low8 (x : Int) : Nat := (x.emod 256).toNat

/-- One guarded destination write of draw_ch_blit, for one computed
destination coordinate (dx, dy).  MONO_HLSB does a bit level
read-modify-write of one byte; RGB_565 writes one 16 bit little endian
word (two bytes).  Any other colormode writes nothing (no branch taken).
Int shift right >>> is arithmetic shift, as in Viper; the left shift of
color by the bit position is written as a multiplication by 2^shift
because the stored byte keeps only the low 8 bits anyway. -/
def writePixel (fb : List Nat) (fb_width fb_len : Int) (color : Int)
    (colormode : Nat) (dx dy : Int) : List Nat :=
  if colormode = COLORMODE_MONO_HLSB then
    let fb_byte := (dy * fb_width + dx) >>> (3 : Nat)
    if fb_byte < 0 ∨ fb_byte ≥ fb_len ∨ dx ≥ fb_width ∨ dx < 0 then fb
    else
      let fb_bit_shift : Nat := 7 - dx.toNat % 8
      let fb_bit_mask : Nat := 255 ^^^ (1 <<< fb_bit_shift)
      fb.set fb_byte.toNat
        ((fb.getD fb_byte.toNat 0 &&& fb_bit_mask) |||
          low8 (color * 2 ^ fb_bit_shift))
  else if colormode = COLORMODE_RGB_565 then
    let fb_word := dy * fb_width + dx
    if fb_word < 0 ∨ fb_word ≥ fb_len >>> (1 : Nat) ∨ dx ≥ fb_width ∨ dx < 0 then fb
    else
      let c16 := (color.emod 65536).toNat
      (fb.set (2 * fb_word.toNat) (c16 % 256)).set (2 * fb_word.toNat + 1) (c16 / 256)
  else fb

/-- MicroFont.draw_ch_blit: iterate the glyph pixels row major; for every
set pixel compute the two oversampled destination coordinates with the
64-scaled fixed point rotation (s = (step<<4)+(step<<3) = 24*step, and
the +2048 term is the 1<<11 rounding bias before the >>12) and perform
the guarded write.  The Viper int parameters ch_width and ch_height are
nonnegative loop bounds, modelled as Nat. -/
def draw_ch_blit (fb : List Nat) (fb_width fb_len : Int) (ch_buf : List Nat)
    (ch_width ch_height : Nat) (dst_x dst_y off_x off_y color sin_a cos_a : Int)
    (colormode : Nat) : List Nat :=
  (List.range ch_height).foldl (fun fb y =>
    (List.range ch_width).foldl (fun fb x =>
      let ch_byte := (ch_width >>> 3) * y + (x >>> 3)
      let ch_pixel := (ch_buf.getD ch_byte 0 >>> (7 - x % 8)) &&& 1
      if ch_pixel = 0 then fb
      else
        (List.range 2).foldl (fun fb step =>
          let s : Int := (step : Int) * 16 + (step : Int) * 8
          let dx := dst_x +
            ((((((x : Int) + off_x) * 64) + s) * cos_a -
              ((((y : Int) + off_y) * 64) + s) * sin_a + 2048) >>> (12 : Nat))
          let dy := dst_y +
            ((((((x : Int) + off_x) * 64) + s) * sin_a +
              ((((y : Int) + off_y) * 64) + s) * cos_a + 2048) >>> (12 : Nat))
          writePixel fb fb_width fb_len color colormode dx dy) fb) fb) fb

/-- framebuf.MONO_HLSB constant of the external micropython framebuf
module (value 3); only its distinctness from RGB565 matters here. -/
def framebuf_MONO_HLSB : Nat := 3

/-- framebuf.RGB565 constant of the external micropython framebuf
module (value 1). -/
def framebuf_RGB565 : Nat := 1

/-- MicroFont.draw_ch: pad the glyph width to a byte boundary, pick the
fixed point sin/cos either from the fast path constants for the four
canonical angles or from the table, then dispatch on the framebuffer
format; an unsupported format raises ValueError. -/
def draw_ch (ch : List Nat × Nat × Nat) (fb : List Nat) (fb_fmt : Nat)
    (fb_width fb_height : Nat) (dst_x dst_y : Int) (color : Int)
    (off_x off_y : Int) (rot : Int) : Except String (List Nat) :=
  let ch_buf := ch.1
  let ch_height := ch.2.1
  let ch_width := (ch.2.2 + 7) / 8 * 8
  let sc : Int × Int :=
    if rot = 0 then (0, 64)
    else if rot = 90 then (64, 0)
    else if rot = 180 then (0, -64)
    else if rot = 270 then (-64, 0)
    else (fast_sin rot, fast_cos rot)
  if fb_fmt = framebuf_MONO_HLSB then
    .ok (draw_ch_blit fb (fb_width : Int) ((fb_width * fb_height / 8 : Nat) : Int)
      ch_buf ch_width ch_height dst_x dst_y off_x off_y color sc.1 sc.2
      COLORMODE_MONO_HLSB)
  else if fb_fmt = framebuf_RGB565 then
    .ok (draw_ch_blit fb (fb_width : Int) ((fb_width * fb_height * 2 : Nat) : Int)
      ch_buf ch_width ch_height dst_x dst_y off_x off_y color sc.1 sc.2
      COLORMODE_RGB_565)
  else .error "Unsupported framebuffer color format"

/-- The general rotation path of draw_ch, as described by the spec:
identical to draw_ch except that the fixed point sin/cos always come
from the fast_sin/fast_cos table, with no fast path for the four
canonical angles.  Used to state the rotation identity claim. -/
def draw_ch_general (ch : List Nat × Nat × Nat) (fb : List Nat) (fb_fmt : Nat)
    (fb_width fb_height : Nat) (dst_x dst_y : Int) (color : Int)
    (off_x off_y : Int) (rot : Int) : Except String (List Nat) :=
  let ch_buf := ch.1
  let ch_height := ch.2.1
  let ch_width := (ch.2.2 + 7) / 8 * 8
  let sc : Int × Int := (fast_sin rot, fast_cos rot)
  if fb_fmt = framebuf_MONO_HLSB then
    .ok (draw_ch_blit fb (fb_width : Int) ((fb_width * fb_height / 8 : Nat) : Int)
      ch_buf ch_width ch_height dst_x dst_y off_x off_y color sc.1 sc.2
      COLORMODE_MONO_HLSB)
  else if fb_fmt = framebuf_RGB565 then
    .ok (draw_ch_blit fb (fb_width : Int) ((fb_width * fb_height * 2 : Nat) : Int)
      ch_buf ch_width ch_height dst_x dst_y off_x off_y color sc.1 sc.2
      COLORMODE_RGB_565)
  else .error "Unsupported framebuffer color format"

end MF

namespace F2M

/-- Bitmap from font_to_microfont.py: a width x height array of one byte
pixel values, row major. -/
structure Bitmap where
  width : Nat
  height : Nat
  pixels : List Nat
deriving Repr, DecidableEq

/-- One byte produced by the horizontal mapping generator get_hbyte for
a given row and byte chunk: bits of the up-to-8 columns of the chunk,
MSB first (or LSB first when reverse), columns past the bitmap width
contributing nothing. -/
def hbyteChunk (bm : Bitmap) (reverse : Bool) (row chunk : Nat) : Nat :=
  (List.range 8).foldl (fun byte bit =>
    let col := chunk * 8 + bit
    if col < bm.width then
      byte ||| (bm.pixels.getD (row * bm.width + col) 0) <<<
        (if reverse then bit else 7 - bit)
    else byte) 0

/-- Bitmap.get_hbyte: for every row, ceil(width/8) bytes. -/
def get_hbyte (bm : Bitmap) (reverse : Bool) : List Nat :=
  (List.range bm.height).flatMap (fun row =>
    (List.range ((bm.width + 7) / 8)).map (hbyteChunk bm reverse row))

/-- One byte of the vertical mapping generator get_vbyte for a given
column and byte chunk of rows. -/
def vbyteChunk (bm : Bitmap) (reverse : Bool) (col chunk : Nat) : Nat :=
  (List.range 8).foldl (fun byte bit =>
    let row := chunk * 8 + bit
    if row < bm.height then
      byte ||| (bm.pixels.getD (row * bm.width + col) 0) <<<
        (if reverse then 7 - bit else bit)
    else byte) 0

/-- Bitmap.get_vbyte: for every column, ceil(height/8) bytes. -/
def get_vbyte (bm : Bitmap) (reverse : Bool) : List Nat :=
  (List.range bm.width).flatMap (fun col =>
    (List.range ((bm.height + 7) / 8)).map (vbyteChunk bm reverse col))

/-- Bitmap.bitblt: copy src into dst at the given top/left corner.  The
source walks one destination pixel pointer; pixel (r, c) of src lands at
destination index (top+r)*dst.width + (left+c).  Callers establish that
top is nonnegative (row = height - ascent - max descent with
ascent <= max ascent), so top/left are Nat here. -/
def bitblt (dst : Bitmap) (src : Bitmap) (top left : Nat) : Bitmap :=
  { dst with pixels :=
      (List.range src.height).foldl (fun px r =>
        (List.range src.width).foldl (fun px c =>
          px.set ((top + r) * dst.width + (left + c))
            (src.pixels.getD (r * src.width + c) 0)) px) dst.pixels }

/-- The per character metrics handed over by the external rasterizer
(freetype), per the collaborator interface: monochrome mask pixels with
its width/height, top and left bearings, and the advance width.  The
advance is a 26.6 fixed point value in the source, truncated with int()
wherever it is consumed; since the bearings and widths are integers and
int() commutes with the max expressions involved, it is modelled here
already truncated to Nat. -/
structure RawGlyph where
  pixels : List Nat
  width : Nat
  height : Nat
  top : Int
  left : Int
  advance_width : Nat
deriving Repr, DecidableEq

/-- Glyph.__init__ descent: max(0, height - top). -/
def Glyph_descent (g : RawGlyph) : Int := max 0 ((g.height : Int) - g.top)

/-- Glyph.__init__ ascent: max(0, max(top, height) - descent). -/
def Glyph_ascent (g : RawGlyph) : Int :=
  max 0 (max g.top (g.height : Int) - Glyph_descent g)

/-- The per-glyph width contribution of the measuring passes
(bmp_dimensions / get_dimensions): int(max(max_width, advance, width)). -/
def measureWidth (gs : List RawGlyph) : Nat :=
  gs.foldl (fun mw g => max mw (max g.advance_width g.width)) 0

/-- max(ascent) over the glyph list, starting at 0 as in the source. -/
def measureAscent (gs : List RawGlyph) : Int :=
  gs.foldl (fun ma g => max ma (Glyph_ascent g)) 0

/-- max(descent) over the glyph list, starting at 0 as in the source. -/
def measureDescent (gs : List RawGlyph) : Int :=
  gs.foldl (fun md g => max md (Glyph_descent g)) 0

/-- The logical character width computed by Font._assign_values:
for left >= 0, int(max(advance, width + left)) keeping left; for
left < 0, int(max(advance - left, width)) with left clamped to 0.
Returns (char_width, clamped left). -/
def charWidthLeft (g : RawGlyph) : Nat × Nat :=
  if g.left ≥ 0 then
    (max g.advance_width (g.width + g.left.toNat), g.left.toNat)
  else
    (max (g.advance_width + g.left.natAbs) g.width, 0)

/-- One entry of Font._assign_values: self[char] = [outbuffer, width,
char_width], where width is self.width when truthy (monospaced) else
char_width, outbuffer is a width x height zero bitmap with the mask
composited at row = height - ascent - max_descent, column = left. -/
def assignEntry (fontWidth fontHeight : Nat) (maxDescent : Int) (g : RawGlyph) :
    Bitmap × Nat × Nat :=
  let (char_width, left) := charWidthLeft g
  let width := if fontWidth ≠ 0 then fontWidth else char_width
  let row := ((fontHeight : Int) - Glyph_ascent g - maxDescent).toNat
  let outbuffer := bitblt (Bitmap.mk width fontHeight (List.replicate (width * fontHeight) 0))
    (Bitmap.mk g.width g.height g.pixels) row left
  (outbuffer, width, char_width)

/-- The self.width attribute set by Font.__init__:
self.max_width if monospaced else 0. -/
def fontSelfWidth (monospaced : Bool) (max_width : Nat) : Nat :=
  if monospaced then max_width else 0

/-! The height fitter Font.get_dimensions.  The rasterizer measurement
is abstracted as a function f from the trial pixel size to the achieved
height max(ascent)+max(descent), a Nat derived from the external
freetype rendering of the full charset at that size. -/

/-- The body of the for npass in range(10) loop of get_dimensions.  The
fuel argument is 10 - npass, the remaining passes; each recursive call is
one pass.  A pass adds the carried error to the trial height, measures,
computes new_error = required - achieved and stops when new_error == 0 or
abs(new_error) - abs(error) == 0 (or the passes run out), carrying
new_error otherwise.  Returns (passes executed, final trial height,
final achieved height). -/
def fitAux (f : Int → Nat) (required : Int) : Nat → Int → Int → Nat × Int × Nat
  | 0, _, height => (0, height, 0)
  | fuel + 1, error, height =>
    let height2 := height + error
    let achieved := f height2
    let new_error := required - (achieved : Int)
    if new_error = 0 ∨ ((new_error.natAbs : Int) - (error.natAbs : Int) = 0) ∨ fuel = 0 then
      (1, height2, achieved)
    else
      let r := fitAux f required fuel new_error height2
      (r.1 + 1, r.2.1, r.2.2)

/-- Font.get_dimensions iteration: 10 passes maximum, starting from
error = 0 and trial height = required_height. -/
def get_dimensions_fit (f : Int → Nat) (required : Int) : Nat × Int × Nat :=
  fitAux f required 10 0 required

/-- The trial sizes the fitter would visit if it never stopped: the
first trial is the requested height; each next trial adds the error
of the previous one. -/
def trialSeq (f : Int → Nat) (H : Int) : Nat → Int
  | 0 => H
  | n + 1 => trialSeq f H n + (H - (f (trialSeq f H n) : Int))

/-- The error of pass n: requested height minus achieved height at the
trial size of pass n. -/
def errAt (f : Int → Nat) (H : Int) (n : Nat) : Int :=
  H - (f (trialSeq f H n) : Int)

/-- The stop rule of the source at pass n, phrased on the error
sequence: the error vanishes, or (from the second pass on) its
magnitude equals the magnitude of the previous error. -/
def stopAt (f : Int → Nat) (H : Int) (n : Nat) : Bool :=
  errAt f H n = 0 || (n ≠ 0 && (errAt f H n).natAbs = (errAt f H (n - 1)).natAbs)

/-- Number of passes the fitter executes according to the stop rule:
one past the first index in 0..9 where the rule fires, or all 10. -/
def passesSpec (f : Int → Nat) (H : Int) : Nat :=
  match (List.range 10).find? (stopAt f H) with
  | some n => n + 1
  | none => 10

/-! Serialization: Font.build_arrays and the container file layout. -/

/-- int.to_bytes(2, "little"); the callers in the source raise
OverflowError for values >= 65536 before composing these bytes. -/
def to_bytes2 (n : Nat) : List Nat := [n % 256, n / 256 % 256]

/-- int.to_bytes(4, "little") for the header index length field. -/
def to_bytes4 (n : Nat) : List Nat :=
  [n % 256, n / 256 % 256, n / 65536 % 256, n / 16777216 % 256]

/-- One build entry: the character code (ord), and the triple stored in
the Font dict: outbuffer bitmap, stored width (self[char][1]) and
logical char_width (self[char][2]). -/
structure FontEntry where
  ch : Nat
  outbuffer : Bitmap
  width : Nat
  char_width : Nat
deriving Repr, DecidableEq

/-- Font.stream_char: serialize the outbuffer horizontally or
vertically. -/
def stream_char (e : FontEntry) (hmap reverse : Bool) : List Nat :=
  if hmap then get_hbyte e.outbuffer reverse else get_vbyte e.outbuffer reverse

/-- append_data of build_arrays: the two byte little endian stored
width followed by the streamed bytes; width.to_bytes(2) raises
OverflowError for width >= 65536. -/
def append_data (data : List Nat) (e : FontEntry) (hmap reverse : Bool) :
    Except String (List Nat) :=
  if e.width ≥ 65536 then .error "OverflowError"
  else .ok (data ++ to_bytes2 e.width ++ stream_char e hmap reverse)

/-- The pad-to-8 step of build_arrays: if len(data) % 8 != 0, append
8 - len % 8 zero bytes. -/
def pad8 (data : List Nat) : List Nat :=
  let pad := data.length % 8
  if pad ≠ 0 then data ++ List.replicate (8 - pad) 0 else data

/-- The ValueError message raised when a block offset does not fit the
two byte field. -/
def capacityError : String := "Total size of font bitmap exceeds 524287 bytes."

/-- One iteration of the for char in sorted(self.keys()) loop of
build_arrays: append the code to the sparse index (ord.to_bytes(2)
raises for codes >= 65536), pad the data to an 8 byte boundary, append
the data offset in 8 byte blocks (to_bytes(2) overflow is turned into
the 524287 capacity ValueError), then append the glyph block through
append_data, inlined here (width check then block bytes). -/
def buildStep (hmap reverse : Bool) (e : FontEntry) (acc : List Nat × List Nat) :
    Except String (List Nat × List Nat) :=
  let data := acc.1
  let sparse := acc.2
  if e.ch ≥ 65536 then .error "OverflowError"
  else
    let sparse := sparse ++ to_bytes2 e.ch
    let data := pad8 data
    if data.length >>> 3 ≥ 65536 then .error capacityError
    else
      let sparse := sparse ++ to_bytes2 (data.length >>> 3)
      if e.width ≥ 65536 then .error "OverflowError"
      else .ok (data ++ to_bytes2 e.width ++ stream_char e hmap reverse, sparse)

/-- Font.build_arrays: the default character block first (data offset 0,
not indexed), then every key in sorted order through buildStep.  The
keys list is sorted(self.keys()): strictly increasing codes, the default
character among them. -/
def build_arrays (default : FontEntry) (keys : List FontEntry)
    (hmap reverse : Bool) : Except String (List Nat × List Nat) :=
  match append_data [] default hmap reverse with
  | .error s => .error s
  | .ok data => keys.foldlM (fun acc e => buildStep hmap reverse e acc) (data, [])

/-- write_data: the MFNT header <4sBBBBL (magic, height, baseline = max
ascent, max width, monospaced flag, sparse index length), then the
sparse index, then the data.  struct.pack raises for byte fields
larger than 255. -/
def write_data (height baseline max_width : Nat) (monospaced : Bool)
    (built : List Nat × List Nat) : Except String (List Nat) :=
  if height ≥ 256 ∨ baseline ≥ 256 ∨ max_width ≥ 256 then .error "struct.error"
  else
    .ok ([77, 70, 78, 84] ++
      [height, baseline, max_width, if monospaced then 1 else 0] ++
      to_bytes4 built.2.length ++ built.2 ++ built.1)

/-! Replay functions describing the successful build: block lengths and
the 8 byte aligned start offsets of the indexed glyph blocks. -/

/-- The bytes of one glyph data block: stored width then streamed rows. -/
def blockBytes (e : FontEntry) (hmap reverse : Bool) : List Nat :=
  to_bytes2 e.width ++ stream_char e hmap reverse

/-- Length of one glyph data block. -/
def blockLen (e : FontEntry) (hmap reverse : Bool) : Nat :=
  (blockBytes e hmap reverse).length

/-- n rounded up to the next multiple of 8 (the padding build_arrays
performs before recording an offset). -/
def padTo8 (n : Nat) : Nat := if n % 8 ≠ 0 then n + (8 - n % 8) else n

/-- Start offsets (in bytes from the start of the data section) of the
indexed glyph blocks, starting after a prefix of the given length. -/
def offsetsFrom (hmap reverse : Bool) : Nat → List FontEntry → List Nat
  | _, [] => []
  | start, e :: rest =>
    padTo8 start :: offsetsFrom hmap reverse (padTo8 start + blockLen e hmap reverse) rest

/-- Total data length of a successful build starting from a prefix of
the given length. -/
def finalLenFrom (hmap reverse : Bool) : Nat → List FontEntry → Nat
  | n, [] => n
  | n, e :: rest => finalLenFrom hmap reverse (padTo8 n + blockLen e hmap reverse) rest

/-- Total data length of a successful build. -/
def finalLen (default : FontEntry) (keys : List FontEntry) (hmap reverse : Bool) : Nat :=
  finalLenFrom hmap reverse (blockLen default hmap reverse) keys

/-- The sparse index bytes as pairs: each entry is the two byte little
endian code followed by the two byte little endian value. -/
def encodeIndex (es : List (Nat × Nat)) : List Nat :=
  es.flatMap fun e => to_bytes2 e.1 ++ to_bytes2 e.2

/-! The charset assembly of Font.__init__ for the explicit-charset
branch, on character codes; covered plays the role of
face.get_char_index(x) != 0. -/

/-- cl = codes of chr(defchar) + charset that the face covers. -/
def charsetCl (defchar : Nat) (charset : List Nat) (covered : Nat → Bool) : List Nat :=
  (defchar :: charset).filter covered

/-- The .charset list: item 0 is the default char, then one item per
ordinal of range(min(cl), max(cl)+1), kept only when in the requested
charset and covered, holes encoded as none (the empty string). -/
def charsetList (defchar : Nat) (charset : List Nat) (covered : Nat → Bool) :
    List (Option Nat) :=
  let cl := charsetCl defchar charset covered
  let lo := cl.foldl min (cl.headD 0)
  let hi := cl.foldl max (cl.headD 0)
  let cs := (List.range (hi + 1 - lo)).map (fun i =>
    let ordv := lo + i
    if charset.contains ordv ∧ covered ordv then some ordv else none)
  some defchar :: cs

/-- The defined keys, in dict insertion order: the non-hole entries of
.charset, first occurrence kept (dict.fromkeys). -/
def fontKeys (defchar : Nat) (charset : List Nat) (covered : Nat → Bool) : List Nat :=
  ((charsetList defchar charset covered).filterMap id).dedup

/-- Insertion of a code into a sorted list (ascending), modelling the
sorted(self.keys()) traversal order of build_arrays. -/
def insertSorted (n : Nat) : List Nat → List Nat
  | [] => [n]
  | m :: rest => if n ≤ m then n :: m :: rest else m :: insertSorted n rest

/-- sorted() on a list of codes. -/
def sortCodes (l : List Nat) : List Nat := l.foldr insertSorted []

/-! A concrete build: requested height 16, default char 63 (the question
mark), explicit charset with the single character 65 (capital A).  The
rasterizer masks are concrete RawGlyph values at pixel size 16. -/

/-- Question mark mask at size 16: a 6x16 all-ink mask with top bearing
13, left bearing 1, advance 8, so ascent 13 and descent 3. -/
def rastQ : RawGlyph :=
  { pixels := List.replicate (6 * 16) 1, width := 6, height := 16,
    top := 13, left := 1, advance_width := 8 }

/-- Capital A mask at size 16: a 14x13 all-ink mask with top bearing 13,
left bearing 1, advance 16, so ascent 13 and descent 0. -/
def rastA : RawGlyph :=
  { pixels := List.replicate (14 * 13) 1, width := 14, height := 13,
    top := 13, left := 1, advance_width := 16 }

/-- The rasterizer measurement for the scenario charset, as a function
of the trial pixel size: at size 16 the achieved height
max(ascent)+max(descent) is 16 (13+3). -/
def scenarioMeasure (s : Int) : Nat :=
  if s = 16 then (measureAscent [rastQ, rastA] + measureDescent [rastQ, rastA]).toNat
  else 0

/-- The key codes of the scenario font in build order:
sorted(fontKeys 63 [65]). -/
def scenarioKeyCodes : List Nat := sortCodes (fontKeys 63 [65] (fun _ => true))

/-- The dict entry built by _assign_values for the question mark
(non-monospaced, height 16, max descent 3). -/
def entryQ : FontEntry :=
  let t := assignEntry (fontSelfWidth false (measureWidth [rastQ, rastA])) 16
    (measureDescent [rastQ, rastA]) rastQ
  { ch := 63, outbuffer := t.1, width := t.2.1, char_width := t.2.2 }

/-- The error carried into pass n of the fitter: 0 before the first
pass, afterwards the error of the previous pass. -/
def prevErr (f : Int → Nat) (H : Int) (n : Nat) : Int :=
  if n = 0 then 0 else errAt f H (n - 1)

/-- Number of passes the fitter executes when it starts at pass index n
with fuel passes left: one past the first index in the window where the
stop rule fires, else all of fuel. -/
def passesFrom (f : Int → Nat) (H : Int) (n fuel : Nat) : Nat :=
  match (List.range' n fuel).find? (stopAt f H) with
  | some m => m + 1 - n
  | none => fuel

/-- A rasterizer measurement on which the magnitude of the error grows
from one pass to the next before vanishing: at the requested height 5 it
achieves 4 (error 1), at 6 it achieves 8 (error -3), at 3 it achieves 5
(error 0). -/
def oscRasterizer : Int → Nat :=
  fun h => if h = 5 then 4 else if h = 6 then 8 else if h = 3 then 5 else 5

/-- Whether a build returned ok. -/
def buildOk (x : Except String (List Nat × List Nat)) : Bool :=
  match x with
  | .ok _ => true
  | .error _ => false

/-- Data length of a successful build result, 0 on error. -/
def builtDataLen (x : Except String (List Nat × List Nat)) : Nat :=
  match x with
  | .ok ds => ds.1.length
  | .error _ => 0

/-- A small default entry for the capacity counterexample: stored width
8, a one row 8 pixel bitmap, so a 3 byte block. -/
def bigDefault : FontEntry :=
  { ch := 63, outbuffer := { width := 8, height := 1, pixels := List.replicate 8 0 },
    width := 8, char_width := 8 }

/-- A huge glyph for the capacity counterexample: stored width 65528
(8191 bytes per row) and 65 rows, so a 2 + 8191 * 65 = 532417 byte
block; its start offset is 8, so the offset check passes while the
total data grows far past 524287 bytes. -/
def bigA : FontEntry :=
  { ch := 65,
    outbuffer := { width := 65528, height := 65, pixels := List.replicate (65528 * 65) 0 },
    width := 65528, char_width := 65528 }

/-- A degenerate rasterizer glyph with zero advance and zero bitmap
width but a positive left bearing: its logical width is 3 while the
global max width over a charset of such glyphs is 0. -/
def gZero : RawGlyph :=
  { pixels := [], width := 0, height := 0, top := 0, left := 3, advance_width := 0 }

/-- The dict entry built by _assign_values for capital A. -/
def entryA : FontEntry :=
  let t := assignEntry (fontSelfWidth false (measureWidth [rastQ, rastA])) 16
    (measureDescent [rastQ, rastA]) rastA
  { ch := 65, outbuffer := t.1, width := t.2.1, char_width := t.2.2 }

/-- The data and sparse index of the scenario build
(hmap = true, reverse = false, as write_font always passes). -/
def scenarioBuilt : List Nat × List Nat :=
  match build_arrays entryQ [entryQ, entryA] true false with
  | .ok b => b
  | .error _ => ([], [])

/-- The on-disk bytes of the scenario container: header (height 16,
baseline 13 = max ascent, max width 16, not monospaced), sparse index,
data. -/
def scenarioFile : List Nat :=
  match write_data ((measureAscent [rastQ, rastA] + measureDescent [rastQ, rastA]).toNat)
      (measureAscent [rastQ, rastA]).toNat (measureWidth [rastQ, rastA]) false
      scenarioBuilt with
  | .ok f => f
  | .error _ => []

end F2M

/-- The reader state right after opening the scenario container with
both caches disabled. -/
def scenarioReader : MF.Reader :=
  match MF.MicroFont_init F2M.scenarioFile false false with
  | .ok r => r
  | .error _ =>
    { height := 0, baseline := 0, max_width := 0, monospaced := false,
      index_len := 0, cache_chars := false, cache_index := false,
      index := none, cache := [] }

/-- All bytes at positions at or beyond the declared framebuffer length
agree with the original buffer, and the buffer length is unchanged. -/
def UntouchedOutside (fb0 : List Nat) (fb_len : Int) (fb : List Nat) : Prop :=
  fb.length = fb0.length ∧
  ∀ i : Nat, fb_len ≤ (i : Int) → fb.getD i 0 = fb0.getD i 0

/-- The height field as parsed from the file header. -/
def headerHeight (file : List Nat) : Nat := file.getD 4 0

/-- The sparse index length as parsed from the file header. -/
def headerIndexLen (file : List Nat) : Nat :=
  file.getD 8 0 + (file.getD 9 0) * 256 +
    (file.getD 10 0) * 65536 + (file.getD 11 0) * 16777216

/-- Invariant of reader states reachable over a fixed file: the header
derived fields match the file, a cached index equals the buffer get_ch
would read, and every cached triple equals the pure lookup result. -/
def ReaderInv (file : List Nat) (r : MF.Reader) : Prop :=
  r.height = headerHeight file ∧ r.index_len = headerIndexLen file ∧
  (∀ i, r.index = some i → i = MF.indexBuffer file (headerIndexLen file)) ∧
  (∀ p ∈ r.cache, p.2 = MF.get_ch_pure file (headerHeight file) (headerIndexLen file) p.1)

/-- The reader state right after opening the scenario container with
both caches enabled. -/
def scenarioReaderCached : MF.Reader :=
  match MF.MicroFont_init F2M.scenarioFile true true with
  | .ok r => r
  | .error _ =>
    { height := 0, baseline := 0, max_width := 0, monospaced := false,
      index_len := 0, cache_chars := false, cache_index := false,
      index := none, cache := [] }

/-- C1: the round-trip claim fails on the code.  In the concrete
scenario container, capital A was built with logical width 16 (so a 32
byte blob), but get_ch on the very container the build produced returns
width 8 and a 16 byte blob: get_ch reads its search buffer with
stream.seek(0); stream.read(index_len), so the buffer it binary-searches
is the first index_len bytes of the file, i.e. the header bytes, never
the sparse index that starts at offset 12; the search misses and falls
back to the unindexed default glyph at data offset 0. -/
theorem C1_roundtrip_broken :
    F2M.entryA.width = 16 ∧ (F2M.entryA.width + 7) / 8 * 16 = 32 ∧
    MF.MicroFont_init F2M.scenarioFile false false = .ok scenarioReader ∧
    MF.indexBuffer F2M.scenarioFile scenarioReader.index_len =
      [77, 70, 78, 84, 16, 13, 16, 0] ∧
    (MF.get_ch F2M.scenarioFile scenarioReader 65).1.2.2 = 8 ∧
    (MF.get_ch F2M.scenarioFile scenarioReader 65).1.1.length = 16 :=
  ⟨by decide, by decide, rfl, by decide, by decide, by decide⟩

/-- C3: evaluation of the concrete scenario (default char 63, one
requested glyph 65, fitted height 16).  The header is MFNT with height
16 and nonzero baseline 13 <= 16, but the sparse index is 8 bytes long
(two entries: the default character also receives an index entry in
addition to its unindexed copy at data offset 0), not 4 as the claim
states; and lookup of 65 returns the default glyph triple (width 8,
16 bytes), identical to the uncovered 66, instead of the 32 byte blob
of capital A, because of the index read defect recorded at C1. -/
theorem C3_scenario_eval :
    F2M.scenarioKeyCodes = [63, 65] ∧
    F2M.scenarioFile.take 4 = [77, 70, 78, 84] ∧
    F2M.scenarioFile.getD 4 0 = 16 ∧
    F2M.scenarioFile.getD 5 0 = 13 ∧ 0 < 13 ∧ 13 ≤ 16 ∧
    F2M.scenarioBuilt.2.length = 8 ∧
    (MF.get_ch F2M.scenarioFile scenarioReader 65).1 =
      (MF.get_ch F2M.scenarioFile scenarioReader 66).1 ∧
    (MF.get_ch F2M.scenarioFile scenarioReader 65).1 =
      (List.replicate 16 126, 16, 8) ∧
    (MF.get_ch F2M.scenarioFile scenarioReader 65).1.1.length ≠
      (F2M.entryA.width + 7) / 8 * 16 := by
  decide

/-- C9: for each of the four canonical angles the table derived
fast_sin/fast_cos values coincide with the hard coded fast path
constants of draw_ch, so the general rotation path of the spec produces
output identical to draw_ch for every surface and argument list. -/
theorem C9_rotation_fast_path_identity (rot : Int)
    (h : rot = 0 ∨ rot = 90 ∨ rot = 180 ∨ rot = 270)
    (ch : List Nat × Nat × Nat) (fb : List Nat) (fb_fmt : Nat)
    (fb_width fb_height : Nat) (dst_x dst_y color off_x off_y : Int) :
    MF.draw_ch ch fb fb_fmt fb_width fb_height dst_x dst_y color off_x off_y rot =
      MF.draw_ch_general ch fb fb_fmt fb_width fb_height dst_x dst_y color off_x off_y rot := by
  have hs0 : MF.fast_sin 0 = 0 := by decide
  have hc0 : MF.fast_cos 0 = 64 := by decide
  have hs90 : MF.fast_sin 90 = 64 := by decide
  have hc90 : MF.fast_cos 90 = 0 := by decide
  have hs180 : MF.fast_sin 180 = 0 := by decide
  have hc180 : MF.fast_cos 180 = -64 := by decide
  have hs270 : MF.fast_sin 270 = -64 := by decide
  have hc270 : MF.fast_cos 270 = 0 := by decide
  rcases h with h | h | h | h <;> subst h <;>
    simp [MF.draw_ch, MF.draw_ch_general,
      hs0, hc0, hs90, hc90, hs180, hc180, hs270, hc270]


theorem untouchedOutside_refl (fb0 : List Nat) (fb_len : Int) :
    UntouchedOutside fb0 fb_len fb0 :=
  ⟨rfl, fun _ _ => rfl⟩

theorem untouchedOutside_set (fb0 : List Nat) (fb_len : Int) (fb : List Nat)
    (j : Nat) (v : Nat) (h : UntouchedOutside fb0 fb_len fb)
    (hj : (j : Int) < fb_len) : UntouchedOutside fb0 fb_len (fb.set j v) := by
  refine ⟨by simp [List.length_set, h.1], fun i hi => ?_⟩
  have hne : j ≠ i := by
    intro he
    subst he
    omega
  have h2 := h.2 i hi
  simp only [List.getD, List.get?_eq_getElem?] at h2 ⊢
  rw [List.getElem?_set_ne hne]
  exact h2

theorem foldl_preserves {α β : Type} (P : α → Prop) (f : α → β → α) :
    ∀ (l : List β) (a : α), P a → (∀ x b, P x → P (f x b)) → P (l.foldl f a) := by
  intro l
  induction l with
  | nil => intro a h _; exact h
  | cons b t ih => intro a h hs; exact ih _ (hs _ _ h) hs

theorem writePixel_untouched (fb0 : List Nat) (fb_width fb_len color : Int)
    (colormode : Nat) (dx dy : Int) (fb : List Nat)
    (h : UntouchedOutside fb0 fb_len fb) :
    UntouchedOutside fb0 fb_len (MF.writePixel fb fb_width fb_len color colormode dx dy) := by
  unfold MF.writePixel
  dsimp only
  split_ifs with hcm hg hcm2 hg2
  · exact h
  · push_neg at hg
    obtain ⟨hge, hlt, -, -⟩ := hg
    apply untouchedOutside_set _ _ _ _ _ h
    have htn : (((dy * fb_width + dx) >>> (3 : Nat)).toNat : Int) =
        (dy * fb_width + dx) >>> (3 : Nat) := Int.toNat_of_nonneg (by omega)
    omega
  · exact h
  · push_neg at hg2
    obtain ⟨hge, hlt, -, -⟩ := hg2
    have hdiv : fb_len >>> (1 : Nat) = fb_len / 2 := by
      rw [Int.shiftRight_eq_div_pow]
      norm_num
    rw [hdiv] at hlt
    have htn : ((dy * fb_width + dx).toNat : Int) = dy * fb_width + dx :=
      Int.toNat_of_nonneg (by omega)
    apply untouchedOutside_set
    · apply untouchedOutside_set _ _ _ _ _ h
      omega
    · omega
  · exact h

/-- C7: the blitter writes only inside the declared destination length.
For every glyph buffer, destination position (including fully off
surface), offsets, fixed point sin/cos pair and colormode, draw_ch_blit
preserves the framebuffer length and leaves every byte at index at or
beyond fb_len unchanged; being a total function of the embedding, it
raises nothing. -/
theorem C7_blit_bounds_safety (fb : List Nat) (fb_width fb_len : Int)
    (ch_buf : List Nat) (ch_width ch_height : Nat)
    (dst_x dst_y off_x off_y color sin_a cos_a : Int) (colormode : Nat) :
    (MF.draw_ch_blit fb fb_width fb_len ch_buf ch_width ch_height dst_x dst_y
        off_x off_y color sin_a cos_a colormode).length = fb.length ∧
    ∀ i : Nat, fb_len ≤ (i : Int) →
      (MF.draw_ch_blit fb fb_width fb_len ch_buf ch_width ch_height dst_x dst_y
          off_x off_y color sin_a cos_a colormode).getD i 0 = fb.getD i 0 := by
  have main : UntouchedOutside fb fb_len
      (MF.draw_ch_blit fb fb_width fb_len ch_buf ch_width ch_height dst_x dst_y
        off_x off_y color sin_a cos_a colormode) := by
    unfold MF.draw_ch_blit
    apply foldl_preserves _ _ _ _ (untouchedOutside_refl fb fb_len)
    intro fby y hy
    apply foldl_preserves _ _ _ _ hy
    intro fbx x hx
    dsimp only
    split
    · exact hx
    · apply foldl_preserves _ _ _ _ hx
      intro fbs step hs
      exact writePixel_untouched _ _ _ _ _ _ _ _ hs
  exact ⟨main.1, main.2⟩

/-- Witness for C7: a fully off-surface draw on a 2 byte buffer with a
declared length of 1 leaves the byte at index 1 unchanged. -/
theorem C7_blit_bounds_safety_witness :
    (MF.draw_ch_blit [7, 9] 8 1 [255] 8 1 100 100 0 0 1 0 64
        MF.COLORMODE_MONO_HLSB).getD 1 0 = [7, 9].getD 1 0 :=
  (C7_blit_bounds_safety [7, 9] 8 1 [255] 8 1 100 100 0 0 1 0 64
    MF.COLORMODE_MONO_HLSB).2 1 (by decide)




theorem lookup_mem_nat {β : Type} :
    ∀ (l : List (Nat × β)) (k : Nat) (v : β), List.lookup k l = some v → (k, v) ∈ l := by
  intro l
  induction l with
  | nil => intro k v h; simp [List.lookup] at h
  | cons p t ih =>
    intro k v h
    rw [List.lookup] at h
    by_cases he : k = p.1
    · subst he
      simp at h
      subst h
      simp
    · have : (k == p.1) = false := by simp [he]
      rw [this] at h
      exact List.mem_cons_of_mem _ (ih _ _ h)

theorem afterIndexRead_height (file : List Nat) (r : MF.Reader) :
    (MF.afterIndexRead file r).height = r.height := by
  unfold MF.afterIndexRead
  rcases r.index with _ | i
  · dsimp only
    split <;> rfl
  · rfl

theorem afterIndexRead_index_len (file : List Nat) (r : MF.Reader) :
    (MF.afterIndexRead file r).index_len = r.index_len := by
  unfold MF.afterIndexRead
  rcases r.index with _ | i
  · dsimp only
    split <;> rfl
  · rfl

theorem afterIndexRead_cache_chars (file : List Nat) (r : MF.Reader) :
    (MF.afterIndexRead file r).cache_chars = r.cache_chars := by
  unfold MF.afterIndexRead
  rcases r.index with _ | i
  · dsimp only
    split <;> rfl
  · rfl

theorem afterIndexRead_cache (file : List Nat) (r : MF.Reader) :
    (MF.afterIndexRead file r).cache = r.cache := by
  unfold MF.afterIndexRead
  rcases r.index with _ | i
  · dsimp only
    split <;> rfl
  · rfl

theorem afterIndexRead_index (file : List Nat) (r : MF.Reader) (j : List Nat)
    (hj : (MF.afterIndexRead file r).index = some j) :
    r.index = some j ∨ j = MF.indexBuffer file r.index_len := by
  revert hj
  unfold MF.afterIndexRead
  rcases hr : r.index with _ | i
  · dsimp only
    split
    · intro hj
      simp at hj
      exact Or.inr hj.symm
    · intro hj
      rw [hr] at hj
      cases hj
  · dsimp only
    intro hj
    rw [hr] at hj
    exact Or.inl hj

theorem get_ch_of_inv (file : List Nat) (r : MF.Reader) (code : Nat)
    (h : ReaderInv file r) :
    (MF.get_ch file r code).1 =
      MF.get_ch_pure file (headerHeight file) (headerIndexLen file) code ∧
    ReaderInv file (MF.get_ch file r code).2 := by
  obtain ⟨hh, hil, hidx, hcache⟩ := h
  have hwi : MF.workingIndex file r = MF.indexBuffer file (headerIndexLen file) := by
    unfold MF.workingIndex
    rcases hr : r.index with _ | i
    · rw [hil]
    · exact hidx i hr
  have hfst : ∀ r1 : MF.Reader, r1.height = headerHeight file →
      r1.index_len = headerIndexLen file →
      ((((file.drop (12 + r1.index_len + (MF.bs (MF.indexBuffer file (headerIndexLen file)) code) <<< 3 + 2)).take
        ((MF.read_int_16 [file.getD (12 + r1.index_len + (MF.bs (MF.indexBuffer file (headerIndexLen file)) code) <<< 3) 0,
          file.getD (12 + r1.index_len + (MF.bs (MF.indexBuffer file (headerIndexLen file)) code) <<< 3 + 1) 0] + 7) / 8 * r1.height)),
        r1.height,
        MF.read_int_16 [file.getD (12 + r1.index_len + (MF.bs (MF.indexBuffer file (headerIndexLen file)) code) <<< 3) 0,
          file.getD (12 + r1.index_len + (MF.bs (MF.indexBuffer file (headerIndexLen file)) code) <<< 3 + 1) 0]) :
        List Nat × Nat × Nat) =
      MF.get_ch_pure file (headerHeight file) (headerIndexLen file) code := by
    intro r1 h1 h2
    rw [h1, h2]
    rfl
  unfold MF.get_ch
  split
  · next t _ hl =>
    exact ⟨hcache _ (lookup_mem_nat _ _ _ hl), hh, hil, hidx, hcache⟩
  · next =>
    dsimp only
    rw [hwi]
    have hr1h : (MF.afterIndexRead file r).height = headerHeight file := by
      rw [afterIndexRead_height, hh]
    have hr1l : (MF.afterIndexRead file r).index_len = headerIndexLen file := by
      rw [afterIndexRead_index_len, hil]
    have hret := hfst (MF.afterIndexRead file r) hr1h hr1l
    constructor
    · exact hret
    · have hcache1 : ∀ p ∈ (MF.afterIndexRead file r).cache,
          p.2 = MF.get_ch_pure file (headerHeight file) (headerIndexLen file) p.1 := by
        rw [afterIndexRead_cache]
        exact hcache
      have hidx1 : ∀ i, (MF.afterIndexRead file r).index = some i →
          i = MF.indexBuffer file (headerIndexLen file) := by
        intro i hi
        rcases afterIndexRead_index file r i hi with hc | hc
        · exact hidx i hc
        · rw [hc, hil]
      split
      · refine ⟨hr1h, hr1l, hidx1, ?_⟩
        intro p hp
        rcases List.mem_cons.mp hp with hp | hp
        · rw [hp]
          exact hret
        · exact hcache1 p hp
      · exact ⟨hr1h, hr1l, hidx1, hcache1⟩

theorem runCalls_inv (file : List Nat) :
    ∀ (calls : List Nat) (r : MF.Reader), ReaderInv file r →
      ReaderInv file (MF.runCalls file r calls) := by
  intro calls
  induction calls with
  | nil => intro r h; exact h
  | cons c rest ih =>
    intro r h
    exact ih _ (get_ch_of_inv file r c h).2

theorem init_inv (file : List Nat) (ci cc : Bool) (r : MF.Reader)
    (h : MF.MicroFont_init file ci cc = .ok r) : ReaderInv file r := by
  unfold MF.MicroFont_init at h
  split_ifs at h
  cases h
  refine ⟨rfl, rfl, ?_, ?_⟩
  · intro i hi
    cases hi
  · intro p hp
    cases hp

/-- C10: cache transparency.  For one fixed font file, the triple
returned by get_ch for a code is the pure header-derived lookup result,
independent of the cache_index / cache_chars constructor flags and of
any earlier lookups performed on the same reader. -/
theorem C10_cache_transparency (file : List Nat) (ci1 cc1 ci2 cc2 : Bool)
    (r1 r2 : MF.Reader)
    (h1 : MF.MicroFont_init file ci1 cc1 = .ok r1)
    (h2 : MF.MicroFont_init file ci2 cc2 = .ok r2)
    (calls1 calls2 : List Nat) (code : Nat) :
    (MF.get_ch file (MF.runCalls file r1 calls1) code).1 =
      (MF.get_ch file (MF.runCalls file r2 calls2) code).1 := by
  have e1 := (get_ch_of_inv file _ code (runCalls_inv file calls1 r1 (init_inv file ci1 cc1 r1 h1))).1
  have e2 := (get_ch_of_inv file _ code (runCalls_inv file calls2 r2 (init_inv file ci2 cc2 r2 h2))).1
  rw [e1, e2]


/-- Witness for C10: over the scenario container, a fully cached reader
that already looked up two codes returns the same triple for code 66 as
a cache-free fresh reader. -/
theorem C10_cache_transparency_witness :
    (MF.get_ch F2M.scenarioFile
        (MF.runCalls F2M.scenarioFile scenarioReaderCached [65, 66]) 66).1 =
      (MF.get_ch F2M.scenarioFile
        (MF.runCalls F2M.scenarioFile scenarioReader []) 66).1 :=
  C10_cache_transparency F2M.scenarioFile true true false false
    scenarioReaderCached scenarioReader rfl rfl [65, 66] [] 66

/-- Witness for C9 at rotation 0 on a MONO surface. -/
theorem C9_rotation_fast_path_identity_witness :
    MF.draw_ch ([255], 1, 8) [0, 0] MF.framebuf_MONO_HLSB 8 2 0 0 1 0 0 0 =
      MF.draw_ch_general ([255], 1, 8) [0, 0] MF.framebuf_MONO_HLSB 8 2 0 0 1 0 0 0 :=
  C9_rotation_fast_path_identity 0 (Or.inl rfl) ([255], 1, 8) [0, 0]
    MF.framebuf_MONO_HLSB 8 2 0 0 1 0 0

theorem stop_cond_iff (f : Int → Nat) (H : Int) (n : Nat) :
    (F2M.errAt f H n = 0 ∨
      ((F2M.errAt f H n).natAbs : Int) - ((F2M.prevErr f H n).natAbs : Int) = 0) ↔
    F2M.stopAt f H n = true := by
  unfold F2M.stopAt F2M.prevErr
  by_cases hn : n = 0
  · subst hn
    simp
  · simp only [hn, if_neg, ite_false, Bool.or_eq_true, Bool.and_eq_true,
      decide_eq_true_eq, ne_eq, not_false_eq_true, true_and]
    constructor
    · intro h
      rcases h with h | h
      · exact Or.inl h
      · right
        omega
    · intro h
      rcases h with h | h
      · exact Or.inl h
      · right
        omega

theorem passesFrom_pos (f : Int → Nat) (H : Int) (n fuel : Nat) (h : 1 ≤ fuel) :
    1 ≤ F2M.passesFrom f H n fuel := by
  unfold F2M.passesFrom
  rcases hf : (List.range' n fuel).find? (F2M.stopAt f H) with _ | m
  · exact h
  · have hmem : m ∈ List.range' n fuel := List.mem_of_find?_eq_some hf
    rw [List.mem_range'_1] at hmem
    dsimp only
    omega

theorem passesFrom_le (f : Int → Nat) (H : Int) (n fuel : Nat) :
    F2M.passesFrom f H n fuel ≤ fuel := by
  unfold F2M.passesFrom
  rcases hf : (List.range' n fuel).find? (F2M.stopAt f H) with _ | m
  · exact Nat.le_refl _
  · have hmem : m ∈ List.range' n fuel := List.mem_of_find?_eq_some hf
    rw [List.mem_range'_1] at hmem
    dsimp only
    omega

theorem passesFrom_stop (f : Int → Nat) (H : Int) (n fuel : Nat)
    (h : F2M.stopAt f H n = true) : F2M.passesFrom f H n (fuel + 1) = 1 := by
  unfold F2M.passesFrom
  rw [List.range'_succ, List.find?_cons, h]
  simp

theorem passesFrom_go (f : Int → Nat) (H : Int) (n fuel : Nat)
    (h : F2M.stopAt f H n = false) :
    F2M.passesFrom f H n (fuel + 1) = F2M.passesFrom f H (n + 1) fuel + 1 := by
  unfold F2M.passesFrom
  rw [List.range'_succ, List.find?_cons, h]
  rcases hf : (List.range' (n + 1) fuel).find? (F2M.stopAt f H) with _ | m
  · simp
  · have hmem : m ∈ List.range' (n + 1) fuel := List.mem_of_find?_eq_some hf
    rw [List.mem_range'_1] at hmem
    simp
    omega

theorem fitAux_eq_passesFrom (f : Int → Nat) (H : Int) :
    ∀ (fuel n : Nat), 1 ≤ fuel →
      F2M.fitAux f H fuel (F2M.prevErr f H n) (F2M.trialSeq f H n - F2M.prevErr f H n) =
        (F2M.passesFrom f H n fuel,
         F2M.trialSeq f H (n + (F2M.passesFrom f H n fuel - 1)),
         f (F2M.trialSeq f H (n + (F2M.passesFrom f H n fuel - 1)))) := by
  intro fuel
  induction fuel with
  | zero => intro n h; omega
  | succ k ih =>
    intro n _
    have hh2 : F2M.trialSeq f H n - F2M.prevErr f H n + F2M.prevErr f H n =
        F2M.trialSeq f H n := Int.sub_add_cancel _ _
    have herr : H - (f (F2M.trialSeq f H n) : Int) = F2M.errAt f H n := rfl
    simp only [F2M.fitAux, hh2, herr]
    by_cases hstop : F2M.stopAt f H n = true
    · have hcond : F2M.errAt f H n = 0 ∨
          ((F2M.errAt f H n).natAbs : Int) - ((F2M.prevErr f H n).natAbs : Int) = 0 :=
        (stop_cond_iff f H n).mpr hstop
      have hp1 : F2M.passesFrom f H n (k + 1) = 1 := passesFrom_stop f H n k hstop
      rcases hcond with hc | hc
      · simp [hc, hp1]
      · rw [if_pos (Or.inr (Or.inl hc)), hp1]
        simp
    · have hstopf : F2M.stopAt f H n = false := by
        cases h : F2M.stopAt f H n
        · rfl
        · exact absurd h hstop
      have hcond : ¬(F2M.errAt f H n = 0 ∨
          ((F2M.errAt f H n).natAbs : Int) - ((F2M.prevErr f H n).natAbs : Int) = 0) := by
        intro hc
        exact hstop ((stop_cond_iff f H n).mp hc)
      rcases Nat.eq_zero_or_pos k with hk | hk
      · subst hk
        rw [if_pos (Or.inr (Or.inr rfl))]
        have hp1 : F2M.passesFrom f H n 1 = 1 := by
          have h1 := passesFrom_pos f H n 1 (Nat.le_refl 1)
          have h2 := passesFrom_le f H n 1
          omega
        rw [hp1]
        simp
      · have hknz : ¬(k = 0) := by omega
        rw [if_neg (by tauto)]
        have hpe : F2M.prevErr f H (n + 1) = F2M.errAt f H n := by
          simp [F2M.prevErr]
        have hts : F2M.trialSeq f H (n + 1) - F2M.errAt f H n =
            F2M.trialSeq f H n := by
          show F2M.trialSeq f H n + (H - (f (F2M.trialSeq f H n) : Int)) -
            F2M.errAt f H n = F2M.trialSeq f H n
          rw [herr]
          omega
        have hr := ih (n + 1) hk
        rw [hpe] at hr
        rw [hts] at hr
        rw [hr]
        have hgo := passesFrom_go f H n k hstopf
        have hpos := passesFrom_pos f H (n + 1) k hk
        dsimp only
        rw [hgo]
        have hidx : n + 1 + (F2M.passesFrom f H (n + 1) k - 1) =
            n + (F2M.passesFrom f H (n + 1) k + 1 - 1) := by omega
        rw [hidx]

/-- C4 counterexample: with the oscRasterizer measurement and requested
height 5, the magnitude of the second pass error (3) is larger than the
first pass error magnitude (1), so the claimed stop rule (stop when the
new error magnitude is no smaller than the previous one) would stop
after 2 passes; the code only stops on equal magnitudes and runs a
third pass. -/
theorem C4_stop_rule_counterexample :
    F2M.errAt F2M.oscRasterizer 5 0 = 1 ∧
    F2M.errAt F2M.oscRasterizer 5 1 = -3 ∧
    (F2M.errAt F2M.oscRasterizer 5 0).natAbs ≤ (F2M.errAt F2M.oscRasterizer 5 1).natAbs ∧
    (F2M.get_dimensions_fit F2M.oscRasterizer 5).1 = 3 := by
  decide

/-- C4 amended: the fitter starts with trial size H, runs at most 10
passes, and stops exactly at the first pass whose error is zero or
whose error magnitude is equal to (not merely no smaller than) the
previous pass error magnitude; each continuing pass adds its error to
the trial size.  Stated as a closed form: the executed pass count is
passesSpec (first firing index of the stop rule over the first 10
passes), and the final trial size and achieved height are those of the
stopping pass of the trial sequence. -/
theorem C4_fitter_characterization (f : Int → Nat) (H : Int) :
    F2M.get_dimensions_fit f H =
      (F2M.passesSpec f H,
       F2M.trialSeq f H (F2M.passesSpec f H - 1),
       f (F2M.trialSeq f H (F2M.passesSpec f H - 1))) ∧
    F2M.trialSeq f H 0 = H ∧
    1 ≤ F2M.passesSpec f H ∧ F2M.passesSpec f H ≤ 10 := by
  have hps : F2M.passesSpec f H = F2M.passesFrom f H 0 10 := by
    unfold F2M.passesSpec F2M.passesFrom
    rw [List.range_eq_range']
    rcases (List.range' 0 10).find? (F2M.stopAt f H) with _ | m
    · rfl
    · simp
  have h := fitAux_eq_passesFrom f H 10 0 (by norm_num)
  have hpe : F2M.prevErr f H 0 = 0 := rfl
  have hts : F2M.trialSeq f H 0 = H := rfl
  rw [hpe, hts, Int.sub_zero] at h
  refine ⟨?_, rfl, ?_, ?_⟩
  · rw [F2M.get_dimensions_fit, h, hps]
    simp
  · rw [hps]
    exact passesFrom_pos f H 0 10 (by norm_num)
  · rw [hps]
    exact passesFrom_le f H 0 10

theorem get_hbyte_length (bm : F2M.Bitmap) (reverse : Bool) :
    (F2M.get_hbyte bm reverse).length = bm.height * ((bm.width + 7) / 8) := by
  unfold F2M.get_hbyte
  rw [List.length_flatMap]
  have hc : (List.length ∘ fun row =>
      (List.range ((bm.width + 7) / 8)).map (F2M.hbyteChunk bm reverse row)) =
      fun _ : Nat => (bm.width + 7) / 8 := by
    funext row
    simp
  rw [hc, List.map_const', List.sum_replicate, List.length_range, smul_eq_mul]

theorem get_vbyte_length (bm : F2M.Bitmap) (reverse : Bool) :
    (F2M.get_vbyte bm reverse).length = bm.width * ((bm.height + 7) / 8) := by
  unfold F2M.get_vbyte
  rw [List.length_flatMap]
  have hc : (List.length ∘ fun col =>
      (List.range ((bm.height + 7) / 8)).map (F2M.vbyteChunk bm reverse col)) =
      fun _ : Nat => (bm.height + 7) / 8 := by
    funext col
    simp
  rw [hc, List.map_const', List.sum_replicate, List.length_range, smul_eq_mul]

theorem stream_char_length (e : F2M.FontEntry) (hmap reverse : Bool) :
    (F2M.stream_char e hmap reverse).length =
      if hmap then e.outbuffer.height * ((e.outbuffer.width + 7) / 8)
      else e.outbuffer.width * ((e.outbuffer.height + 7) / 8) := by
  unfold F2M.stream_char
  split
  · exact get_hbyte_length _ _
  · exact get_vbyte_length _ _

theorem blockLen_eq (e : F2M.FontEntry) (hmap reverse : Bool) :
    F2M.blockLen e hmap reverse = 2 + (F2M.stream_char e hmap reverse).length := by
  unfold F2M.blockLen F2M.blockBytes F2M.to_bytes2
  simp
  omega

theorem pad8_length (d : List Nat) : (F2M.pad8 d).length = F2M.padTo8 d.length := by
  unfold F2M.pad8 F2M.padTo8
  dsimp only
  split_ifs with h
  · simp
  · rfl

theorem pad8_prefix (d : List Nat) : ∃ g, F2M.pad8 d = d ++ g := by
  unfold F2M.pad8
  dsimp only
  split_ifs with h
  · exact ⟨_, rfl⟩
  · exact ⟨[], by simp⟩

theorem padTo8_mod (n : Nat) : F2M.padTo8 n % 8 = 0 := by
  unfold F2M.padTo8
  split_ifs with h
  · omega
  · omega

theorem padTo8_ge (n : Nat) : n ≤ F2M.padTo8 n := by
  unfold F2M.padTo8
  split_ifs with h <;> omega

theorem le_finalLenFrom (hmap reverse : Bool) :
    ∀ (keys : List F2M.FontEntry) (start : Nat),
      start ≤ F2M.finalLenFrom hmap reverse start keys := by
  intro keys
  induction keys with
  | nil => intro start; exact Nat.le_refl _
  | cons e rest ih =>
    intro start
    have h1 := padTo8_ge start
    have h2 := ih (F2M.padTo8 start + F2M.blockLen e hmap reverse)
    calc start ≤ F2M.padTo8 start + F2M.blockLen e hmap reverse := by omega
      _ ≤ _ := h2

theorem offsetsFrom_le_finalLen (hmap reverse : Bool) :
    ∀ (keys : List F2M.FontEntry) (start : Nat) (o : Nat),
      o ∈ F2M.offsetsFrom hmap reverse start keys →
      o ≤ F2M.finalLenFrom hmap reverse start keys := by
  intro keys
  induction keys with
  | nil => intro start o ho; cases ho
  | cons e rest ih =>
    intro start o ho
    rcases List.mem_cons.mp ho with h | h
    · subst h
      show F2M.padTo8 start ≤ F2M.finalLenFrom hmap reverse
        (F2M.padTo8 start + F2M.blockLen e hmap reverse) rest
      have := le_finalLenFrom hmap reverse rest (F2M.padTo8 start + F2M.blockLen e hmap reverse)
      omega
    · exact ih _ o h

theorem offsetsFrom_mod8 (hmap reverse : Bool) :
    ∀ (keys : List F2M.FontEntry) (start : Nat) (o : Nat),
      o ∈ F2M.offsetsFrom hmap reverse start keys → o % 8 = 0 := by
  intro keys
  induction keys with
  | nil => intro start o ho; cases ho
  | cons e rest ih =>
    intro start o ho
    rcases List.mem_cons.mp ho with h | h
    · subst h
      exact padTo8_mod start
    · exact ih _ o h

theorem buildStep_ok (hmap reverse : Bool) (e : F2M.FontEntry)
    (data0 sparse0 : List Nat) (ds : List Nat × List Nat)
    (h : F2M.buildStep hmap reverse e (data0, sparse0) = .ok ds) :
    e.ch < 65536 ∧ e.width < 65536 ∧ (F2M.pad8 data0).length >>> 3 < 65536 ∧
    ds.1 = F2M.pad8 data0 ++ F2M.blockBytes e hmap reverse ∧
    ds.2 = sparse0 ++ F2M.to_bytes2 e.ch ++ F2M.to_bytes2 ((F2M.pad8 data0).length >>> 3) := by
  revert h
  unfold F2M.buildStep
  dsimp only
  split_ifs with h1 h2 h3
  · intro h; cases h
  · intro h; cases h
  · intro h; cases h
  · intro h
    injection h with h
    subst h
    refine ⟨by omega, by omega, by omega, ?_, ?_⟩
    · show F2M.pad8 data0 ++ F2M.to_bytes2 e.width ++ F2M.stream_char e hmap reverse = _
      unfold F2M.blockBytes
      simp
    · simp

theorem buildFold_ok_spec (hmap reverse : Bool) (dflt : F2M.FontEntry) :
    ∀ (keys : List F2M.FontEntry) (data0 sparse0 data sparse : List Nat),
      List.foldlM (fun acc e => F2M.buildStep hmap reverse e acc) (data0, sparse0) keys =
        .ok (data, sparse) →
      (∃ g, data = data0 ++ g) ∧
      data.length = F2M.finalLenFrom hmap reverse data0.length keys ∧
      sparse = sparse0 ++ F2M.encodeIndex (List.zipWith (fun e o => (e.ch, o / 8)) keys
        (F2M.offsetsFrom hmap reverse data0.length keys)) ∧
      (∀ o ∈ F2M.offsetsFrom hmap reverse data0.length keys, o / 8 < 65536) ∧
      (∀ k, k < keys.length →
        (data.drop ((F2M.offsetsFrom hmap reverse data0.length keys).getD k 0)).take
            (F2M.blockLen (keys.getD k dflt) hmap reverse) =
          F2M.blockBytes (keys.getD k dflt) hmap reverse) := by
  intro keys
  induction keys with
  | nil =>
    intro data0 sparse0 data sparse hok
    rw [List.foldlM_nil] at hok
    cases hok
    refine ⟨⟨[], by simp⟩, rfl, by simp [F2M.encodeIndex], ?_, ?_⟩
    · intro o ho; cases ho
    · intro k hk; cases hk
  | cons e rest ih =>
    intro data0 sparse0 data sparse hok
    rw [List.foldlM_cons] at hok
    rcases hstep : F2M.buildStep hmap reverse e (data0, sparse0) with s | ds
    · rw [hstep] at hok
      cases hok
    · rw [hstep] at hok
      have hok2 : List.foldlM (fun acc e => F2M.buildStep hmap reverse e acc) ds rest =
          .ok (data, sparse) := hok
      obtain ⟨hch, hw, hoff, hd1, hs1⟩ := buildStep_ok hmap reverse e data0 sparse0 ds hstep
      obtain ⟨ds1, ds2⟩ := ds
      dsimp only at hd1 hs1
      subst hd1
      subst hs1
      have hlen1 : (F2M.pad8 data0 ++ F2M.blockBytes e hmap reverse).length =
          F2M.padTo8 data0.length + F2M.blockLen e hmap reverse := by
        rw [List.length_append, pad8_length]
        rfl
      obtain ⟨hpre, hlen, hsp, hob, hblocks⟩ := ih _ _ _ _ hok2
      rw [hlen1] at hlen hsp hob hblocks
      have hshift : (F2M.pad8 data0).length >>> 3 = F2M.padTo8 data0.length / 8 := by
        rw [Nat.shiftRight_eq_div_pow, pad8_length]
      have hoffs : F2M.offsetsFrom hmap reverse data0.length (e :: rest) =
          F2M.padTo8 data0.length ::
            F2M.offsetsFrom hmap reverse (F2M.padTo8 data0.length + F2M.blockLen e hmap reverse) rest := rfl
      have hfin : F2M.finalLenFrom hmap reverse data0.length (e :: rest) =
          F2M.finalLenFrom hmap reverse (F2M.padTo8 data0.length + F2M.blockLen e hmap reverse) rest := rfl
      obtain ⟨g1, hg1⟩ := hpre
      obtain ⟨gp, hgp⟩ := pad8_prefix data0
      refine ⟨?_, ?_, ?_, ?_, ?_⟩
      · refine ⟨gp ++ (F2M.blockBytes e hmap reverse ++ g1), ?_⟩
        rw [hg1, hgp]
        simp
      · rw [hfin]
        exact hlen
      · rw [hoffs]
        have hz : List.zipWith (fun e o => (e.ch, o / 8)) (e :: rest)
            (F2M.padTo8 data0.length ::
              F2M.offsetsFrom hmap reverse (F2M.padTo8 data0.length + F2M.blockLen e hmap reverse) rest) =
            (e.ch, F2M.padTo8 data0.length / 8) ::
              List.zipWith (fun e o => (e.ch, o / 8)) rest
                (F2M.offsetsFrom hmap reverse (F2M.padTo8 data0.length + F2M.blockLen e hmap reverse) rest) := rfl
        rw [hz]
        have henc : F2M.encodeIndex ((e.ch, F2M.padTo8 data0.length / 8) ::
            List.zipWith (fun e o => (e.ch, o / 8)) rest
              (F2M.offsetsFrom hmap reverse (F2M.padTo8 data0.length + F2M.blockLen e hmap reverse) rest)) =
            F2M.to_bytes2 e.ch ++ (F2M.to_bytes2 (F2M.padTo8 data0.length / 8) ++
              F2M.encodeIndex (List.zipWith (fun e o => (e.ch, o / 8)) rest
                (F2M.offsetsFrom hmap reverse (F2M.padTo8 data0.length + F2M.blockLen e hmap reverse) rest))) := by
          unfold F2M.encodeIndex
          simp
        rw [henc, hsp, hshift]
        simp
      · rw [hoffs]
        intro o ho
        rcases List.mem_cons.mp ho with h | h
        · subst h
          rw [← hshift]
          exact hoff
        · exact hob o h
      · intro k hk
        rw [hoffs]
        cases k with
        | zero =>
          simp only [List.getD_cons_zero]
          rw [hg1]
          have hassoc : F2M.pad8 data0 ++ F2M.blockBytes e hmap reverse ++ g1 =
              F2M.pad8 data0 ++ (F2M.blockBytes e hmap reverse ++ g1) := by simp
          rw [hassoc]
          have hplen : F2M.padTo8 data0.length = (F2M.pad8 data0).length := (pad8_length data0).symm
          rw [hplen, List.drop_left]
          show (F2M.blockBytes e hmap reverse ++ g1).take (F2M.blockBytes e hmap reverse).length =
            F2M.blockBytes e hmap reverse
          rw [List.take_left]
        | succ k =>
          simp only [List.getD_cons_succ]
          have := hblocks k (by simpa using hk)
          simpa using this

theorem build_arrays_eq_fold (d : F2M.FontEntry) (keys : List F2M.FontEntry)
    (hmap reverse : Bool) (hd : d.width < 65536) :
    F2M.build_arrays d keys hmap reverse =
      List.foldlM (fun acc e => F2M.buildStep hmap reverse e acc)
        (F2M.blockBytes d hmap reverse, []) keys := by
  unfold F2M.build_arrays F2M.append_data
  rw [if_neg (by omega)]
  show List.foldlM _ ([] ++ F2M.to_bytes2 d.width ++ F2M.stream_char d hmap reverse, []) keys = _
  rw [List.nil_append]
  rfl

/-- C6: padding invariant.  In every successfully built container, each
indexed glyph data block starts at a byte offset that is a nonnegative
multiple of 8 from the start of the data section, the stored 16 bit
index offset is exactly that byte offset divided by 8 (and fits the
field), the fallback block sits at offset 0, and the data bytes at each
offset are exactly that glyph block (width field plus packed rows). -/
theorem C6_padding_invariant (hmap reverse : Bool) (d : F2M.FontEntry)
    (keys : List F2M.FontEntry) (data sparse : List Nat)
    (hok : F2M.build_arrays d keys hmap reverse = .ok (data, sparse)) :
    (∀ o ∈ F2M.offsetsFrom hmap reverse (F2M.blockLen d hmap reverse) keys,
      o % 8 = 0 ∧ o / 8 < 65536) ∧
    sparse = F2M.encodeIndex (List.zipWith (fun e o => (e.ch, o / 8)) keys
      (F2M.offsetsFrom hmap reverse (F2M.blockLen d hmap reverse) keys)) ∧
    data.take (F2M.blockLen d hmap reverse) = F2M.blockBytes d hmap reverse ∧
    ∀ k, k < keys.length →
      (data.drop ((F2M.offsetsFrom hmap reverse (F2M.blockLen d hmap reverse) keys).getD k 0)).take
          (F2M.blockLen (keys.getD k d) hmap reverse) =
        F2M.blockBytes (keys.getD k d) hmap reverse := by
  have hd : d.width < 65536 := by
    by_contra hcon
    rw [F2M.build_arrays] at hok
    unfold F2M.append_data at hok
    rw [if_pos (by omega)] at hok
    cases hok
  rw [build_arrays_eq_fold d keys hmap reverse hd] at hok
  have hblock : (F2M.blockBytes d hmap reverse).length = F2M.blockLen d hmap reverse := rfl
  obtain ⟨hpre, _, hsp, hob, hblocks⟩ := buildFold_ok_spec hmap reverse d keys _ _ _ _ hok
  rw [hblock] at hsp hob hblocks
  refine ⟨?_, by simpa using hsp, ?_, hblocks⟩
  · intro o ho
    exact ⟨offsetsFrom_mod8 hmap reverse keys _ o ho, hob o ho⟩
  · obtain ⟨g, hg⟩ := hpre
    rw [hg, ← hblock, List.take_left]

/-- Witness for C6 at the concrete scenario build. -/
theorem C6_padding_invariant_witness :
    F2M.scenarioBuilt.2 = F2M.encodeIndex (List.zipWith (fun e o => (e.ch, o / 8))
      [F2M.entryQ, F2M.entryA]
      (F2M.offsetsFrom true false (F2M.blockLen F2M.entryQ true false)
        [F2M.entryQ, F2M.entryA])) :=
  (C6_padding_invariant true false F2M.entryQ [F2M.entryQ, F2M.entryA]
    F2M.scenarioBuilt.1 F2M.scenarioBuilt.2 rfl).2.1

theorem buildFold_cases (hmap reverse : Bool) :
    ∀ (keys : List F2M.FontEntry) (data0 sparse0 : List Nat),
      (∀ e ∈ keys, e.ch < 65536 ∧ e.width < 65536) →
      (List.foldlM (fun acc e => F2M.buildStep hmap reverse e acc) (data0, sparse0) keys =
          .error F2M.capacityError ↔
        ∃ o ∈ F2M.offsetsFrom hmap reverse data0.length keys, 524288 ≤ o) ∧
      ((∀ o ∈ F2M.offsetsFrom hmap reverse data0.length keys, o ≤ 524287) →
        F2M.buildOk (List.foldlM (fun acc e => F2M.buildStep hmap reverse e acc)
          (data0, sparse0) keys) = true) := by
  intro keys
  induction keys with
  | nil =>
    intro data0 sparse0 _
    refine ⟨⟨?_, ?_⟩, ?_⟩
    · intro h
      rw [List.foldlM_nil] at h
      cases h
    · rintro ⟨o, ho, -⟩
      cases ho
    · intro _
      rw [List.foldlM_nil]
      rfl
  | cons e rest ih =>
    intro data0 sparse0 hk
    have he := hk e (List.mem_cons_self e rest)
    have hrest : ∀ x ∈ rest, x.ch < 65536 ∧ x.width < 65536 :=
      fun x hx => hk x (List.mem_cons_of_mem _ hx)
    rw [List.foldlM_cons]
    have hoffs : F2M.offsetsFrom hmap reverse data0.length (e :: rest) =
        F2M.padTo8 data0.length ::
          F2M.offsetsFrom hmap reverse (F2M.padTo8 data0.length + F2M.blockLen e hmap reverse) rest := rfl
    by_cases hcap : (F2M.pad8 data0).length >>> 3 ≥ 65536
    · have hstep : F2M.buildStep hmap reverse e (data0, sparse0) = .error F2M.capacityError := by
        unfold F2M.buildStep
        dsimp only
        rw [if_neg (by omega), if_pos hcap]
      rw [hstep]
      have hoffbig : 524288 ≤ F2M.padTo8 data0.length := by
        rw [Nat.shiftRight_eq_div_pow, pad8_length] at hcap
        omega
      refine ⟨⟨?_, ?_⟩, ?_⟩
      · intro _
        rw [hoffs]
        exact ⟨F2M.padTo8 data0.length, List.mem_cons_self _ _, hoffbig⟩
      · intro _
        rfl
      · intro hsmall
        exfalso
        rw [hoffs] at hsmall
        have := hsmall (F2M.padTo8 data0.length) (List.mem_cons_self _ _)
        omega
    · have hstep : F2M.buildStep hmap reverse e (data0, sparse0) =
          .ok (F2M.pad8 data0 ++ F2M.blockBytes e hmap reverse,
            sparse0 ++ F2M.to_bytes2 e.ch ++
              F2M.to_bytes2 ((F2M.pad8 data0).length >>> 3)) := by
        unfold F2M.buildStep
        dsimp only
        rw [if_neg (by omega), if_neg hcap, if_neg (by omega)]
        unfold F2M.blockBytes
        rw [List.append_assoc]
      rw [hstep]
      have hbind : ((Except.ok (F2M.pad8 data0 ++ F2M.blockBytes e hmap reverse,
          sparse0 ++ F2M.to_bytes2 e.ch ++
            F2M.to_bytes2 ((F2M.pad8 data0).length >>> 3)) :
            Except String (List Nat × List Nat)) >>=
          fun acc => List.foldlM (fun acc e => F2M.buildStep hmap reverse e acc) acc rest) =
          List.foldlM (fun acc e => F2M.buildStep hmap reverse e acc)
            (F2M.pad8 data0 ++ F2M.blockBytes e hmap reverse,
              sparse0 ++ F2M.to_bytes2 e.ch ++
                F2M.to_bytes2 ((F2M.pad8 data0).length >>> 3)) rest := rfl
      rw [hbind]
      have hlen1 : (F2M.pad8 data0 ++ F2M.blockBytes e hmap reverse).length =
          F2M.padTo8 data0.length + F2M.blockLen e hmap reverse := by
        rw [List.length_append, pad8_length]
        rfl
      obtain ⟨ihiff, ihok⟩ := ih (F2M.pad8 data0 ++ F2M.blockBytes e hmap reverse)
        (sparse0 ++ F2M.to_bytes2 e.ch ++
          F2M.to_bytes2 ((F2M.pad8 data0).length >>> 3)) hrest
      rw [hlen1] at ihiff ihok
      have hheadok : F2M.padTo8 data0.length < 524288 := by
        rw [Nat.shiftRight_eq_div_pow, pad8_length] at hcap
        have := padTo8_mod data0.length
        omega
      refine ⟨?_, ?_⟩
      · rw [ihiff, hoffs]
        constructor
        · rintro ⟨o, ho, hbig⟩
          exact ⟨o, List.mem_cons_of_mem _ ho, hbig⟩
        · rintro ⟨o, ho, hbig⟩
          rcases List.mem_cons.mp ho with h | h
          · subst h
            omega
          · exact ⟨o, h, hbig⟩
      · intro hsmall
        apply ihok
        intro o ho
        rw [hoffs] at hsmall
        exact hsmall o (List.mem_cons_of_mem _ ho)

/-- C5 amended: under the in-range side conditions for the two byte
fields (codes and widths below 65536), the build raises the capacity
ValueError exactly when some indexed glyph block would start at a
(padded) offset of 524288 bytes or more, i.e. when the data written
before some indexed block already exceeds 524287 bytes; hence a build
whose total glyph data stays within 524287 bytes never raises it, but a
build whose total exceeds the bound only through its final block
succeeds silently. -/
theorem C5_capacity_characterization (hmap reverse : Bool) (d : F2M.FontEntry)
    (keys : List F2M.FontEntry) (hd : d.width < 65536)
    (hk : ∀ e ∈ keys, e.ch < 65536 ∧ e.width < 65536) :
    (F2M.build_arrays d keys hmap reverse = .error F2M.capacityError ↔
      ∃ o ∈ F2M.offsetsFrom hmap reverse (F2M.blockLen d hmap reverse) keys, 524288 ≤ o) ∧
    (F2M.finalLen d keys hmap reverse ≤ 524287 →
      F2M.buildOk (F2M.build_arrays d keys hmap reverse) = true) := by
  rw [build_arrays_eq_fold d keys hmap reverse hd]
  have hblock : (F2M.blockBytes d hmap reverse).length = F2M.blockLen d hmap reverse := rfl
  obtain ⟨hiff, hok⟩ := buildFold_cases hmap reverse keys (F2M.blockBytes d hmap reverse) [] hk
  rw [hblock] at hiff hok
  refine ⟨hiff, ?_⟩
  intro hfin
  apply hok
  intro o ho
  have hle := offsetsFrom_le_finalLen hmap reverse keys (F2M.blockLen d hmap reverse) o ho
  unfold F2M.finalLen at hfin
  omega

/-- Witness for C5 at the concrete scenario build, which stays well
below the capacity bound and succeeds. -/
theorem C5_capacity_characterization_witness :
    F2M.buildOk (F2M.build_arrays F2M.entryQ [F2M.entryQ, F2M.entryA] true false) = true :=
  (C5_capacity_characterization true false F2M.entryQ [F2M.entryQ, F2M.entryA]
    (by decide) (by decide)).2 (by decide)

/-- C5 counterexample: a build whose serialized glyph data totals
532425 bytes (beyond the 524287 byte bound) succeeds without any error,
because the oversized bytes all belong to the final glyph block, after
which no offset is ever emitted. -/
theorem C5_capacity_counterexample :
    F2M.buildOk (F2M.build_arrays F2M.bigDefault [F2M.bigA] true false) = true ∧
    F2M.builtDataLen (F2M.build_arrays F2M.bigDefault [F2M.bigA] true false) = 532425 ∧
    524287 < F2M.builtDataLen (F2M.build_arrays F2M.bigDefault [F2M.bigA] true false) := by
  have hdw : F2M.bigDefault.width < 65536 := by norm_num [F2M.bigDefault]
  have hblockD : F2M.blockLen F2M.bigDefault true false = 3 := by
    rw [blockLen_eq, stream_char_length]
    norm_num [F2M.bigDefault]
  have hblockA : F2M.blockLen F2M.bigA true false = 532417 := by
    rw [blockLen_eq, stream_char_length]
    norm_num [F2M.bigA]
  have hkA : ∀ e ∈ [F2M.bigA], e.ch < 65536 ∧ e.width < 65536 := by
    intro e he
    rcases List.mem_singleton.mp he
    norm_num [F2M.bigA]
  have hblock : (F2M.blockBytes F2M.bigDefault true false).length =
      F2M.blockLen F2M.bigDefault true false := rfl
  have hpad3 : F2M.padTo8 3 = 8 := by norm_num [F2M.padTo8]
  have hoffs : F2M.offsetsFrom true false 3 [F2M.bigA] = [8] := by
    show F2M.padTo8 3 :: F2M.offsetsFrom true false
      (F2M.padTo8 3 + F2M.blockLen F2M.bigA true false) [] = [8]
    rw [hpad3]
    rfl
  obtain ⟨-, hok⟩ := buildFold_cases true false [F2M.bigA]
    (F2M.blockBytes F2M.bigDefault true false) [] hkA
  rw [hblock, hblockD, hoffs] at hok
  have hokres : F2M.buildOk (F2M.build_arrays F2M.bigDefault [F2M.bigA] true false) = true := by
    rw [build_arrays_eq_fold _ _ _ _ hdw]
    apply hok
    intro o ho
    rcases List.mem_singleton.mp ho
    omega
  refine ⟨hokres, ?_, ?_⟩
  · rcases hres : F2M.build_arrays F2M.bigDefault [F2M.bigA] true false with s | ds
    · rw [hres] at hokres
      cases hokres
    · have hres2 := hres
      rw [build_arrays_eq_fold _ _ _ _ hdw] at hres2
      obtain ⟨ds1, ds2⟩ := ds
      obtain ⟨-, hlen, -, -, -⟩ :=
        buildFold_ok_spec true false F2M.bigDefault [F2M.bigA] _ _ _ _ hres2
      rw [hblock, hblockD] at hlen
      have hfl : F2M.finalLenFrom true false 3 [F2M.bigA] = 532425 := by
        conv_lhs => rw [F2M.finalLenFrom]; rw [F2M.finalLenFrom]
        rw [hpad3, hblockA]
      rw [hfl] at hlen
      show ds1.length = 532425
      exact hlen
  · rcases hres : F2M.build_arrays F2M.bigDefault [F2M.bigA] true false with s | ds
    · rw [hres] at hokres
      cases hokres
    · have hres2 := hres
      rw [build_arrays_eq_fold _ _ _ _ hdw] at hres2
      obtain ⟨ds1, ds2⟩ := ds
      obtain ⟨-, hlen, -, -, -⟩ :=
        buildFold_ok_spec true false F2M.bigDefault [F2M.bigA] _ _ _ _ hres2
      rw [hblock, hblockD] at hlen
      have hfl : F2M.finalLenFrom true false 3 [F2M.bigA] = 532425 := by
        conv_lhs => rw [F2M.finalLenFrom]; rw [F2M.finalLenFrom]
        rw [hpad3, hblockA]
      rw [hfl] at hlen
      show 524287 < ds1.length
      omega

theorem lor_bytes (a : Nat) (h : a < 65536) : a % 256 ||| (a / 256) <<< 8 = a := by
  have h256 : (256 : Nat) = 2 ^ 8 := by norm_num
  apply Nat.eq_of_testBit_eq
  intro i
  rw [Nat.testBit_lor]
  rcases Nat.lt_or_ge i 8 with hi | hi
  · have h2 : ((a / 256) <<< 8).testBit i = false := by
      simp [Nat.testBit_shiftLeft, Nat.not_le.mpr hi]
    rw [h2, Bool.or_false, h256, Nat.testBit_mod_two_pow]
    simp [hi]
  · have h1 : (a % 256).testBit i = false := by
      apply Nat.testBit_lt_two_pow
      have : (256 : Nat) ≤ 2 ^ i := by
        rw [h256]
        exact Nat.pow_le_pow_right (by norm_num) hi
      omega
    have h3 : a / 256 = a >>> 8 := by
      rw [Nat.shiftRight_eq_div_pow]
    have h4 : 8 + (i - 8) = i := by omega
    have h5 : ((a / 256) <<< 8).testBit i = a.testBit i := by
      simp [Nat.testBit_shiftLeft, hi, h3, Nat.testBit_shiftRight, h4]
    rw [h1, Bool.false_or, h5]

theorem read_pair (a : Nat) (h : a < 65536) : a % 256 ||| (a / 256 % 256) <<< 8 = a := by
  have h2 : a / 256 % 256 = a / 256 := by omega
  rw [h2]
  exact lor_bytes a h

theorem encodeIndex_cons (e : Nat × Nat) (t : List (Nat × Nat)) :
    F2M.encodeIndex (e :: t) =
      e.1 % 256 :: e.1 / 256 % 256 :: e.2 % 256 :: e.2 / 256 % 256 :: F2M.encodeIndex t := by
  unfold F2M.encodeIndex F2M.to_bytes2
  simp

theorem encodeIndex_length (es : List (Nat × Nat)) :
    (F2M.encodeIndex es).length = 4 * es.length := by
  induction es with
  | nil => rfl
  | cons e t ih =>
    rw [encodeIndex_cons]
    simp [ih]
    omega

theorem encodeIndex_drop :
    ∀ (k : Nat) (es : List (Nat × Nat)),
      (F2M.encodeIndex es).drop (4 * k) = F2M.encodeIndex (es.drop k) := by
  intro k
  induction k with
  | zero => intro es; simp
  | succ k ih =>
    intro es
    cases es with
    | nil => simp [F2M.encodeIndex]
    | cons e t =>
      rw [encodeIndex_cons]
      have h4 : 4 * (k + 1) = 4 * k + 1 + 1 + 1 + 1 := by omega
      rw [h4]
      simp only [List.drop_succ_cons, List.drop_drop]
      have := ih t
      simpa using this

theorem encodeIndex_take :
    ∀ (k : Nat) (es : List (Nat × Nat)),
      (F2M.encodeIndex es).take (4 * k) = F2M.encodeIndex (es.take k) := by
  intro k
  induction k with
  | zero => intro es; simp [F2M.encodeIndex]
  | succ k ih =>
    intro es
    cases es with
    | nil => simp [F2M.encodeIndex]
    | cons e t =>
      rw [encodeIndex_cons]
      have h4 : 4 * (k + 1) = 4 * k + 1 + 1 + 1 + 1 := by omega
      rw [h4]
      simp only [List.take_succ_cons]
      rw [encodeIndex_cons, ih t]

theorem getD_drop_add (l : List Nat) (m j : Nat) :
    (l.drop m).getD j 0 = l.getD (m + j) 0 := by
  simp [List.getD, List.getElem?_drop]

theorem encodeIndex_bytes (es : List (Nat × Nat)) (k : Nat) (hk : k < es.length) :
    (F2M.encodeIndex es).getD (4 * k) 0 = (es.getD k (0, 0)).1 % 256 ∧
    (F2M.encodeIndex es).getD (4 * k + 1) 0 = (es.getD k (0, 0)).1 / 256 % 256 ∧
    (F2M.encodeIndex es).getD (4 * k + 2) 0 = (es.getD k (0, 0)).2 % 256 ∧
    (F2M.encodeIndex es).getD (4 * k + 3) 0 = (es.getD k (0, 0)).2 / 256 % 256 := by
  have hdk : es.drop k = es.getD k (0, 0) :: es.drop (k + 1) := by
    rw [List.getD_eq_getElem es (0, 0) hk]
    exact List.drop_eq_getElem_cons hk
  have hd := encodeIndex_drop k es
  rw [hdk, encodeIndex_cons] at hd
  refine ⟨?_, ?_, ?_, ?_⟩
  · have := getD_drop_add (F2M.encodeIndex es) (4 * k) 0
    rw [hd] at this
    simpa using this.symm
  · have := getD_drop_add (F2M.encodeIndex es) (4 * k) 1
    rw [hd] at this
    simpa using this.symm
  · have := getD_drop_add (F2M.encodeIndex es) (4 * k) 2
    rw [hd] at this
    simpa using this.symm
  · have := getD_drop_add (F2M.encodeIndex es) (4 * k) 3
    rw [hd] at this
    simpa using this.symm

theorem lookup_eq_none_of_keys_ne {β : Type} :
    ∀ (l : List (Nat × β)) (k : Nat), (∀ e ∈ l, e.1 ≠ k) → List.lookup k l = none := by
  intro l
  induction l with
  | nil => intro k _; rfl
  | cons p t ih =>
    intro k h
    rw [List.lookup]
    have hne : (k == p.1) = false := by
      simp
      exact fun he => (h p (List.mem_cons_self p t) he.symm).elim
    rw [hne]
    exact ih k (fun e he => h e (List.mem_cons_of_mem _ he))

theorem lookup_append_or {β : Type} :
    ∀ (l1 l2 : List (Nat × β)) (k : Nat),
      List.lookup k (l1 ++ l2) = (List.lookup k l1).or (List.lookup k l2) := by
  intro l1
  induction l1 with
  | nil => intro l2 k; simp [List.lookup]
  | cons p t ih =>
    intro l2 k
    rw [List.cons_append, List.lookup, List.lookup]
    by_cases he : k = p.1
    · have : (k == p.1) = true := by simp [he]
      rw [this]
      rfl
    · have : (k == p.1) = false := by simp [he]
      rw [this]
      exact ih l2 k

theorem lookup_of_mem_pairwise :
    ∀ (l : List (Nat × Nat)) (e : Nat × Nat), e ∈ l →
      l.Pairwise (fun a b => a.1 < b.1) → List.lookup e.1 l = some e.2 := by
  intro l
  induction l with
  | nil => intro e he; cases he
  | cons p t ih =>
    intro e he hs
    rcases List.mem_cons.mp he with h | h
    · subst h
      rw [List.lookup]
      simp
    · have hlt : p.1 < e.1 := (List.pairwise_cons.mp hs).1 e h
      rw [List.lookup]
      have hne : (e.1 == p.1) = false := by
        simp
        omega
      rw [hne]
      exact ih e h (List.pairwise_cons.mp hs).2

theorem bsFuel_encodeIndex :
    ∀ (N : Nat) (es : List (Nat × Nat)) (val fuel : Nat),
      es.length ≤ N → 4 * es.length < fuel → es ≠ [] →
      es.Pairwise (fun a b => a.1 < b.1) →
      (∀ e ∈ es, e.1 < 65536 ∧ e.2 < 65536) →
      MF.bsFuel fuel (F2M.encodeIndex es) val = (List.lookup val es).getD 0 := by
  intro N
  induction N with
  | zero =>
    intro es val fuel hlen _ hne _ _
    cases es with
    | nil => exact absurd rfl hne
    | cons e t => simp at hlen
  | succ N ih =>
    intro es val fuel hlen hfuel hne hsort hb
    obtain ⟨fuel, rfl⟩ : ∃ f, fuel = f + 1 := ⟨fuel - 1, by omega⟩
    have hnpos : 1 ≤ es.length := List.length_pos.mpr hne
    have hk : es.length / 2 < es.length := by omega
    have hmlen : (F2M.encodeIndex es).length = 4 * es.length := encodeIndex_length es
    have hm : (F2M.encodeIndex es).length / 8 * 8 / 2 = 4 * (es.length / 2) := by
      rw [hmlen]
      omega
    have he : es.getD (es.length / 2) (0, 0) ∈ es := by
      rw [List.getD_eq_getElem es (0, 0) hk]
      exact List.getElem_mem _
    have hbe := hb _ he
    obtain ⟨hb1, hb2, hb3, hb4⟩ := encodeIndex_bytes es (es.length / 2) hk
    have hv : (F2M.encodeIndex es).getD (4 * (es.length / 2)) 0 |||
        ((F2M.encodeIndex es).getD (4 * (es.length / 2) + 1) 0) <<< 8 =
        (es.getD (es.length / 2) (0, 0)).1 := by
      rw [hb1, hb2]
      exact read_pair _ hbe.1
    have hw : (F2M.encodeIndex es).getD (4 * (es.length / 2) + 2) 0 |||
        ((F2M.encodeIndex es).getD (4 * (es.length / 2) + 3) 0) <<< 8 =
        (es.getD (es.length / 2) (0, 0)).2 := by
      rw [hb3, hb4]
      exact read_pair _ hbe.2
    simp only [MF.bsFuel]
    rw [hm, hv, hw]
    by_cases hveq : (es.getD (es.length / 2) (0, 0)).1 = val
    · rw [if_pos hveq]
      have hl : List.lookup val es = some (es.getD (es.length / 2) (0, 0)).2 := by
        rw [← hveq]
        exact lookup_of_mem_pairwise es _ he hsort
      rw [hl]
      rfl
    · rw [if_neg hveq]
      by_cases hm0 : 4 * (es.length / 2) = 0
      · rw [if_pos hm0]
        have hn1 : es.length = 1 := by omega
        obtain ⟨a, rfl⟩ := List.length_eq_one.mp hn1
        have hl : List.lookup val [a] = none := by
          apply lookup_eq_none_of_keys_ne
          intro e hme
          rcases List.mem_singleton.mp hme
          intro hcon
          apply hveq
          have h0 : [a].getD ([a].length / 2) (0, 0) = a := by
            have h1 : [a].length / 2 = 0 := by simp
            rw [h1]
            rfl
          rw [h0]
          exact hcon
        rw [hl]
        rfl
      · rw [if_neg hm0]
        have hkpos : 1 ≤ es.length / 2 := by omega
        have hsplit : es = es.take (es.length / 2) ++ es.drop (es.length / 2) :=
          (List.take_append_drop _ es).symm
        have hdk : es.drop (es.length / 2) =
            es.getD (es.length / 2) (0, 0) :: es.drop (es.length / 2 + 1) := by
          rw [List.getD_eq_getElem es (0, 0) hk]
          exact List.drop_eq_getElem_cons hk
        have hpw2 : (es.take (es.length / 2) ++ es.drop (es.length / 2)).Pairwise
            (fun a b => a.1 < b.1) := by
          rw [List.take_append_drop]
          exact hsort
        rw [List.pairwise_append] at hpw2
        obtain ⟨hpwt, hpwd, hcross⟩ := hpw2
        by_cases hlt : (es.getD (es.length / 2) (0, 0)).1 < val
        · rw [if_pos hlt, encodeIndex_drop]
          have hlen2 : (es.drop (es.length / 2)).length ≤ N := by
            simp
            omega
          have hfuel2 : 4 * (es.drop (es.length / 2)).length < fuel := by
            simp
            omega
          have hne2 : es.drop (es.length / 2) ≠ [] := by
            rw [hdk]
            exact List.cons_ne_nil _ _
          have hbd : ∀ e ∈ es.drop (es.length / 2), e.1 < 65536 ∧ e.2 < 65536 :=
            fun e hme => hb e (List.mem_of_mem_drop hme)
          rw [ih _ val fuel hlen2 hfuel2 hne2 hpwd hbd]
          have htk : ∀ x ∈ es.take (es.length / 2), x.1 ≠ val := by
            intro x hx
            have hxlt : x.1 < (es.getD (es.length / 2) (0, 0)).1 := by
              apply hcross x hx
              rw [hdk]
              exact List.mem_cons_self _ _
            omega
          have hle : List.lookup val es = List.lookup val (es.drop (es.length / 2)) := by
            conv_lhs => rw [hsplit]
            rw [lookup_append_or, lookup_eq_none_of_keys_ne _ _ htk]
            rfl
          rw [hle]
        · rw [if_neg hlt, encodeIndex_take]
          have hlen2 : (es.take (es.length / 2)).length ≤ N := by
            simp
            omega
          have hfuel2 : 4 * (es.take (es.length / 2)).length < fuel := by
            simp
            omega
          have hne2 : es.take (es.length / 2) ≠ [] := by
            intro hcon
            have h2 := congrArg List.length hcon
            rw [List.length_take] at h2
            simp only [List.length_nil] at h2
            omega
          have hbt : ∀ e ∈ es.take (es.length / 2), e.1 < 65536 ∧ e.2 < 65536 :=
            fun e hme => hb e (List.mem_of_mem_take hme)
          rw [ih _ val fuel hlen2 hfuel2 hne2 hpwt hbt]
          have hpwd2 := hpwd
          rw [hdk] at hpwd2
          have hdks : ∀ x ∈ es.drop (es.length / 2), x.1 ≠ val := by
            intro x hx
            rw [hdk] at hx
            rcases List.mem_cons.mp hx with h | h
            · subst h
              exact hveq
            · have := (List.pairwise_cons.mp hpwd2).1 x h
              intro hcon
              omega
          have hdn : List.lookup val (es.drop (es.length / 2)) = none :=
            lookup_eq_none_of_keys_ne _ _ hdks
          have hle : List.lookup val es = List.lookup val (es.take (es.length / 2)) := by
            conv_lhs => rw [hsplit]
            rw [lookup_append_or, hdn]
            exact Option.or_none
          rw [hle]

/-- C2: binary search correctness.  For every nonempty sequence of
4 byte index entries (u16 little endian code, u16 little endian value)
in strictly increasing code order, bs run on the encoded buffer returns
the stored value of the entry whose code matches, and 0 (the fallback
glyph offset) when no entry matches; the fuel wrapper of the embedding
witnesses termination of the while loop. -/
theorem C2_binary_search_correct (es : List (Nat × Nat)) (val : Nat)
    (hne : es ≠ []) (hsort : es.Pairwise (fun a b => a.1 < b.1))
    (hb : ∀ e ∈ es, e.1 < 65536 ∧ e.2 < 65536) :
    MF.bs (F2M.encodeIndex es) val = (List.lookup val es).getD 0 := by
  unfold MF.bs
  exact bsFuel_encodeIndex es.length es val ((F2M.encodeIndex es).length + 1)
    (Nat.le_refl _) (by rw [encodeIndex_length]; omega) hne hsort hb

/-- Witness for C2: the scenario index (codes 63 and 65) resolves code
65 to its stored offset 6. -/
theorem C2_binary_search_correct_witness :
    MF.bs (F2M.encodeIndex [(63, 3), (65, 6)]) 65 =
      (List.lookup 65 [(63, 3), (65, 6)]).getD 0 :=
  C2_binary_search_correct [(63, 3), (65, 6)] 65 (by decide) (by decide) (by decide)

theorem getD_set_self (l : List Nat) (i v : Nat) (h : i < l.length) :
    (l.set i v).getD i 0 = v := by
  simp [List.getD, List.getElem?_set_self, h]

theorem getD_set_other (l : List Nat) (i j v : Nat) (h : i ≠ j) :
    (l.set i v).getD j 0 = l.getD j 0 := by
  simp only [List.getD, List.get?_eq_getElem?]
  rw [List.getElem?_set_ne h]

theorem foldl_set_length (w : Nat) (v : Nat → Nat) (px : List Nat) (base : Nat) :
    ((List.range w).foldl (fun px c => px.set (base + c) (v c)) px).length = px.length := by
  refine foldl_preserves (fun l : List Nat => l.length = px.length)
    (fun px c => px.set (base + c) (v c)) (List.range w) px rfl ?_
  intro x b hx
  rw [List.length_set]
  exact hx

theorem foldl_set_row_getD (v : Nat → Nat) :
    ∀ (w : Nat) (px : List Nat) (base j : Nat), base + w ≤ px.length →
      ((List.range w).foldl (fun px c => px.set (base + c) (v c)) px).getD j 0 =
        if base ≤ j ∧ j < base + w then v (j - base) else px.getD j 0 := by
  intro w
  induction w with
  | zero =>
    intro px base j _
    rw [if_neg (by omega)]
    rfl
  | succ w ih =>
    intro px base j hlen
    rw [List.range_succ, List.foldl_append, List.foldl_cons, List.foldl_nil]
    have hflen : ((List.range w).foldl (fun px c => px.set (base + c) (v c)) px).length =
        px.length := foldl_set_length w v px base
    by_cases hj : j = base + w
    · subst hj
      rw [getD_set_self _ _ _ (by omega), if_pos (by omega)]
      have : base + w - base = w := by omega
      rw [this]
    · rw [getD_set_other _ _ _ _ (fun hcon => hj hcon.symm)]
      rw [ih px base j (by omega)]
      by_cases hin : base ≤ j ∧ j < base + w
      · rw [if_pos hin, if_pos (by omega)]
      · rw [if_neg hin, if_neg (by omega)]

theorem blit_rows_getD (W srcW : Nat) (spx : List Nat) (top left : Nat)
    (hW : left + srcW ≤ W) :
    ∀ (n : Nat) (px : List Nat), (top + n) * W ≤ px.length →
      ∀ (r c : Nat), r < n → c < srcW →
        ((List.range n).foldl (fun px r2 =>
            (List.range srcW).foldl (fun px c2 =>
              px.set ((top + r2) * W + (left + c2)) (spx.getD (r2 * srcW + c2) 0)) px)
          px).getD ((top + r) * W + (left + c)) 0 =
        spx.getD (r * srcW + c) 0 := by
  intro n
  induction n with
  | zero =>
    intro px _ r c hr _
    omega
  | succ n ih =>
    intro px hlen r c hr hc
    rw [List.range_succ, List.foldl_append, List.foldl_cons, List.foldl_nil]
    have hplen : ((List.range n).foldl (fun px r2 =>
        (List.range srcW).foldl (fun px c2 =>
          px.set ((top + r2) * W + (left + c2)) (spx.getD (r2 * srcW + c2) 0)) px)
        px).length = px.length := by
      refine foldl_preserves (fun l : List Nat => l.length = px.length)
        (fun px r2 => (List.range srcW).foldl (fun px c2 =>
          px.set ((top + r2) * W + (left + c2)) (spx.getD (r2 * srcW + c2) 0)) px)
        (List.range n) px rfl ?_
      intro x b hx
      rw [← hx]
      refine foldl_preserves (fun l : List Nat => l.length = x.length)
        (fun px c2 => px.set ((top + b) * W + (left + c2)) (spx.getD (b * srcW + c2) 0))
        (List.range srcW) x rfl ?_
      intro y b2 hy
      rw [List.length_set]
      exact hy
    have hrow : ∀ (q : List Nat) (base j : Nat), base + srcW ≤ q.length →
        ((List.range srcW).foldl (fun px c2 =>
          px.set (base + c2) (spx.getD ((n * srcW + c2 : Nat)) 0)) q).getD j 0 =
        if base ≤ j ∧ j < base + srcW then spx.getD (n * srcW + (j - base)) 0
        else q.getD j 0 := by
      intro q base j hq
      exact foldl_set_row_getD (fun c2 => spx.getD (n * srcW + c2) 0) srcW q base j hq
    have hmul1 : (top + n) * W + W = (top + n + 1) * W := by ring
    have hlen2 : (top + n + 1) * W ≤ px.length := by
      have he : top + (n + 1) = top + n + 1 := by omega
      rw [he] at hlen
      exact hlen
    have hbound : (top + n) * W + left + srcW ≤ px.length := by omega
    have hrowbase : ∀ c2 : Nat, (top + n) * W + (left + c2) =
        ((top + n) * W + left) + c2 := by
      intro c2
      omega
    have hrw : ((List.range srcW).foldl (fun px c2 =>
          px.set ((top + n) * W + (left + c2)) (spx.getD (n * srcW + c2) 0))
          ((List.range n).foldl (fun px r2 =>
            (List.range srcW).foldl (fun px c2 =>
              px.set ((top + r2) * W + (left + c2)) (spx.getD (r2 * srcW + c2) 0)) px)
            px)) =
        ((List.range srcW).foldl (fun px c2 =>
          px.set (((top + n) * W + left) + c2) (spx.getD (n * srcW + c2) 0))
          ((List.range n).foldl (fun px r2 =>
            (List.range srcW).foldl (fun px c2 =>
              px.set ((top + r2) * W + (left + c2)) (spx.getD (r2 * srcW + c2) 0)) px)
            px)) := by
      congr 1
      funext px c2
      rw [hrowbase c2]
    rw [hrw]
    by_cases hrn : r = n
    · subst hrn
      rw [foldl_set_row_getD _ srcW _ _ _ (by rw [hplen]; omega)]
      rw [if_pos (by omega)]
      have : (top + r) * W + (left + c) - ((top + r) * W + left) = c := by omega
      rw [this]
    · have hrlt : r < n := by omega
      rw [foldl_set_row_getD _ srcW _ _ _ (by rw [hplen]; omega)]
      have hmul2 : (top + r) * W + W ≤ (top + n) * W := by
        have : (top + r + 1) * W ≤ (top + n) * W :=
          Nat.mul_le_mul_right W (by omega)
        calc (top + r) * W + W = (top + r + 1) * W := by ring
          _ ≤ (top + n) * W := this
      rw [if_neg (by omega)]
      exact ih px (by omega) r c hrlt hc

theorem bitblt_pixel (dst src : F2M.Bitmap) (top left : Nat)
    (hlen : dst.width * dst.height ≤ dst.pixels.length)
    (hW : left + src.width ≤ dst.width) (hH : top + src.height ≤ dst.height)
    (r c : Nat) (hr : r < src.height) (hc : c < src.width) :
    (F2M.bitblt dst src top left).pixels.getD ((top + r) * dst.width + (left + c)) 0 =
      src.pixels.getD (r * src.width + c) 0 := by
  unfold F2M.bitblt
  dsimp only
  refine blit_rows_getD dst.width src.width src.pixels top left hW src.height dst.pixels
    ?_ r c hr hc
  calc (top + src.height) * dst.width ≤ dst.height * dst.width :=
        Nat.mul_le_mul_right _ hH
    _ = dst.width * dst.height := Nat.mul_comm _ _
    _ ≤ _ := hlen

theorem charWidthLeft_fst (g : F2M.RawGlyph) :
    (F2M.charWidthLeft g).1 =
      if 0 ≤ g.left then max g.advance_width (g.width + g.left.toNat)
      else max (g.advance_width + g.left.natAbs) g.width := by
  unfold F2M.charWidthLeft
  split_ifs with h1
  · rfl
  · rfl

theorem charWidthLeft_snd (g : F2M.RawGlyph) :
    (F2M.charWidthLeft g).2 = if 0 ≤ g.left then g.left.toNat else 0 := by
  unfold F2M.charWidthLeft
  split_ifs with h1
  · rfl
  · rfl

theorem assignEntry_eq (fontWidth fontHeight : Nat) (maxDescent : Int) (g : F2M.RawGlyph) :
    F2M.assignEntry fontWidth fontHeight maxDescent g =
      (F2M.bitblt
        (F2M.Bitmap.mk (if fontWidth ≠ 0 then fontWidth else (F2M.charWidthLeft g).1)
          fontHeight
          (List.replicate
            ((if fontWidth ≠ 0 then fontWidth else (F2M.charWidthLeft g).1) * fontHeight) 0))
        (F2M.Bitmap.mk g.width g.height g.pixels)
        (((fontHeight : Int) - F2M.Glyph_ascent g - maxDescent).toNat)
        (F2M.charWidthLeft g).2,
       (if fontWidth ≠ 0 then fontWidth else (F2M.charWidthLeft g).1),
       (F2M.charWidthLeft g).1) := by
  rcases hcw : F2M.charWidthLeft g with ⟨cw, l⟩
  unfold F2M.assignEntry
  rw [hcw]

/-- C8 counterexample: for a monospaced font whose glyphs all have zero
advance and zero bitmap width, the global max width is 0; self.width is
then falsy and _assign_values allocates the logical width (3, from the
positive left bearing) instead of the global max width, so the claimed
monospaced allocation rule fails. -/
theorem C8_monospaced_zero_counterexample :
    F2M.fontSelfWidth true (F2M.measureWidth [F2M.gZero]) = 0 ∧
    (F2M.assignEntry (F2M.fontSelfWidth true (F2M.measureWidth [F2M.gZero]))
        ((F2M.measureAscent [F2M.gZero] + F2M.measureDescent [F2M.gZero]).toNat)
        (F2M.measureDescent [F2M.gZero]) F2M.gZero).2.1 = 3 ∧
    (F2M.assignEntry (F2M.fontSelfWidth true (F2M.measureWidth [F2M.gZero]))
        ((F2M.measureAscent [F2M.gZero] + F2M.measureDescent [F2M.gZero]).toNat)
        (F2M.measureDescent [F2M.gZero]) F2M.gZero).1.width = 3 := by
  decide

/-- C8 amended: _assign_values computes the logical width exactly as the
claim states (left bearing clamped to 0 when negative); it allocates an
output bitmap of the global max width when monospaced and that max
width is nonzero, and of the logical width otherwise (also when
monospaced with a zero max width); the bitmap height is the fitted
height; and the mask lands, pixel for pixel, at row = fitted height -
ascent - global max descent and column = clamped left bearing whenever
the mask fits inside the allocated bitmap. -/
theorem C8_width_and_placement (monospaced : Bool) (gs : List F2M.RawGlyph)
    (g : F2M.RawGlyph) (fontHeight : Nat) :
    (F2M.assignEntry (F2M.fontSelfWidth monospaced (F2M.measureWidth gs)) fontHeight
        (F2M.measureDescent gs) g).2.2 =
      (if 0 ≤ g.left then max g.advance_width (g.width + g.left.toNat)
       else max (g.advance_width + g.left.natAbs) g.width) ∧
    (F2M.assignEntry (F2M.fontSelfWidth monospaced (F2M.measureWidth gs)) fontHeight
        (F2M.measureDescent gs) g).2.1 =
      (if monospaced ∧ F2M.measureWidth gs ≠ 0 then F2M.measureWidth gs
       else (F2M.assignEntry (F2M.fontSelfWidth monospaced (F2M.measureWidth gs)) fontHeight
        (F2M.measureDescent gs) g).2.2) ∧
    (F2M.assignEntry (F2M.fontSelfWidth monospaced (F2M.measureWidth gs)) fontHeight
        (F2M.measureDescent gs) g).1.width =
      (F2M.assignEntry (F2M.fontSelfWidth monospaced (F2M.measureWidth gs)) fontHeight
        (F2M.measureDescent gs) g).2.1 ∧
    (F2M.assignEntry (F2M.fontSelfWidth monospaced (F2M.measureWidth gs)) fontHeight
        (F2M.measureDescent gs) g).1.height = fontHeight ∧
    (∀ r c : Nat, r < g.height → c < g.width →
      (if 0 ≤ g.left then g.left.toNat else 0) + g.width ≤
        (F2M.assignEntry (F2M.fontSelfWidth monospaced (F2M.measureWidth gs)) fontHeight
          (F2M.measureDescent gs) g).2.1 →
      ((fontHeight : Int) - F2M.Glyph_ascent g - F2M.measureDescent gs).toNat + g.height ≤
        fontHeight →
      (F2M.assignEntry (F2M.fontSelfWidth monospaced (F2M.measureWidth gs)) fontHeight
          (F2M.measureDescent gs) g).1.pixels.getD
        (((((fontHeight : Int) - F2M.Glyph_ascent g - F2M.measureDescent gs).toNat + r) *
          (F2M.assignEntry (F2M.fontSelfWidth monospaced (F2M.measureWidth gs)) fontHeight
            (F2M.measureDescent gs) g).2.1) +
          ((if 0 ≤ g.left then g.left.toNat else 0) + c)) 0 =
      g.pixels.getD (r * g.width + c) 0) := by
  rw [assignEntry_eq]
  dsimp only
  have hW2 : (if F2M.fontSelfWidth monospaced (F2M.measureWidth gs) ≠ 0 then
      F2M.fontSelfWidth monospaced (F2M.measureWidth gs) else (F2M.charWidthLeft g).1) =
      (if monospaced ∧ F2M.measureWidth gs ≠ 0 then F2M.measureWidth gs
       else (F2M.charWidthLeft g).1) := by
    unfold F2M.fontSelfWidth
    by_cases hm : monospaced
    · simp only [hm, if_true, true_and]
    · simp [hm]
  refine ⟨charWidthLeft_fst g, ?_, rfl, rfl, ?_⟩
  · rw [hW2]
  · intro r c hr hc hfit hrowfit
    rw [← charWidthLeft_snd g]
    exact bitblt_pixel _ (F2M.Bitmap.mk g.width g.height g.pixels) _ _
      (by rw [List.length_replicate]) (by rw [charWidthLeft_snd]; exact hfit) hrowfit r c hr hc

/-- Witness for C8 at a concrete glyph: the scenario capital A mask at
height 16 with max descent 3, whose top-left ink pixel lands at row 0,
column 1. -/
theorem C8_width_and_placement_witness :
    (F2M.assignEntry (F2M.fontSelfWidth false (F2M.measureWidth [F2M.rastQ, F2M.rastA])) 16
        (F2M.measureDescent [F2M.rastQ, F2M.rastA]) F2M.rastA).1.pixels.getD
      (((((16 : Nat) : Int) - F2M.Glyph_ascent F2M.rastA -
          F2M.measureDescent [F2M.rastQ, F2M.rastA]).toNat + 0) *
        (F2M.assignEntry (F2M.fontSelfWidth false (F2M.measureWidth [F2M.rastQ, F2M.rastA])) 16
          (F2M.measureDescent [F2M.rastQ, F2M.rastA]) F2M.rastA).2.1 +
        ((if 0 ≤ F2M.rastA.left then F2M.rastA.left.toNat else 0) + 0)) 0 =
      F2M.rastA.pixels.getD (0 * F2M.rastA.width + 0) 0 :=
  (C8_width_and_placement false [F2M.rastQ, F2M.rastA] F2M.rastA 16).2.2.2.2
    0 0 (by decide) (by decide) (by decide) (by decide)
